import Mathlib

set_option maxHeartbeats 1600000
set_option maxRecDepth 4000

/-!
Verification of the core of deterministic-tar (src/main.rs): the ordered,
filtering, symlink-resolving directory walker and the binary tar encoder
(headers, checksum, GNU long-name extension, padding, digest side-channel).

The shallow embedding below translates the Rust source:
* byte sequences are `List Nat` (each element the value of one `u8`);
* slice writes (`clone_from_slice`) become `setRange`;
* `format!` octal field formatting becomes `octalFmt`;
* panics become `Except.error`;
* the filesystem is an explicit tree `FSNode`; the unspecified order in which
  the OS lists a directory is a parameter `readDir` that may permute children;
* the external SHA-512 implementation (the sha2 crate) is an abstract
  function parameter; `hex::encode` is modelled concretely (lowercase hex).
-/

/-! ### Byte-sequence helpers -/

/-- UTF-8 encoding of a single code point (model of Rust str bytes). -/
def utf8Char (c : Nat) : List Nat :=
  if c < 0x80 then [c]
  else if c < 0x800 then [0xC0 + c / 64, 0x80 + c % 64]
  else if c < 0x10000 then [0xE0 + c / 4096, 0x80 + c / 64 % 64, 0x80 + c % 64]
  else [0xF0 + c / 262144, 0x80 + c / 4096 % 64, 0x80 + c / 64 % 64, 0x80 + c % 64]

/-- The bytes of a string, as `str::as_bytes` yields them (UTF-8). -/
def strBytes (s : String) : List Nat :=
  s.data.flatMap (fun ch => utf8Char ch.toNat)

/-- One lowercase hexadecimal digit, as a byte. -/
def hexDigit (n : Nat) : Nat := if n < 10 then 48 + n else 87 + n

/-- Model of `hex::encode`: two lowercase hex digits per byte. -/
def hexEncode (l : List Nat) : List Nat :=
  l.flatMap (fun b => [hexDigit (b / 16), hexDigit (b % 16)])

/-- Octal digits of `n`, least significant first, with explicit fuel
(empty for `n = 0`; the caller supplies fuel `n`, always sufficient). -/
def octalDigitsAux : Nat → Nat → List Nat
  | 0, _ => []
  | fuel + 1, n => if n = 0 then [] else (n % 8 + 48) :: octalDigitsAux fuel (n / 8)

/-- Model of Rust `format!` with an `{:0Wo}` field: the octal digits of `n`
as ASCII bytes, left-padded with ASCII zeros to at least `width` digits. -/
def octalFmt (width n : Nat) : List Nat :=
  let ds := if n = 0 then [48] else (octalDigitsAux n n).reverse
  List.replicate (width - ds.length) 48 ++ ds

/-- Model of `v[i..i+r.len()].clone_from_slice(&r)`: overwrite the bytes of
`v` from index `i` on with `r`.  (Coincides with the Rust operation whenever
`i + r.length ≤ v.length`, which holds at every use site below.) -/
def setRange (v : List Nat) (i : Nat) (r : List Nat) : List Nat :=
  v.take i ++ r ++ v.drop (i + r.length)

/-- The slice `l[a..a+n]` (read-only). -/
def sliceGet (l : List Nat) (a n : Nat) : List Nat :=
  (l.drop a).take n

/-! ### Tar header construction (TarOutput in src/main.rs) -/

/-- Sum of all byte values of a header
(`_tar_fix_header_checksum`, summation pass). -/
def sumBytes (h : List Nat) : Nat := h.foldl (· + ·) 0

/-- `TarOutput::_tar_fix_header_checksum`: write
`format!("{:06o}\x00 ", sum)` into bytes 148..156. -/
def fixHeaderChecksum (h : List Nat) : List Nat :=
  setRange h 148 (octalFmt 6 (sumBytes h) ++ [0, 32])

/-- The long-name (LongLink) header emitted by `tar_write_dir` for names
longer than 100 bytes; `n` is the name length in bytes. -/
def dirLongHeader (n : Nat) : List Nat :=
  let h := List.replicate 512 0
  let h := setRange h 0 (strBytes "././@LongLink")
  let h := setRange h 100 (strBytes "0000755\x00")
  let h := setRange h 108 (strBytes "0000000\x00")
  let h := setRange h 116 (strBytes "0000000\x00")
  let h := setRange h 124 (octalFmt 11 n ++ [0])
  let h := setRange h 148 (strBytes "        ")
  let h := setRange h 156 [76]
  let h := setRange h 257 (strBytes "ustar  \x00")
  let h := setRange h 265 (strBytes "root")
  let h := setRange h 297 (strBytes "root")
  fixHeaderChecksum h

/-- The regular directory header emitted by `tar_write_dir`
(typeflag '5', mode 0755, size 0). -/
def dirRegHeader (tarname : List Nat) : List Nat :=
  let h := List.replicate 512 0
  let h := setRange h 0 (tarname.take 100)
  let h := setRange h 100 (strBytes "0000755\x00")
  let h := setRange h 108 (strBytes "0000000\x00")
  let h := setRange h 116 (strBytes "0000000\x00")
  let h := setRange h 124 (strBytes "00000000000\x00")
  let h := setRange h 148 (strBytes "        ")
  let h := setRange h 156 [53]
  let h := setRange h 257 (strBytes "ustar  \x00")
  let h := setRange h 265 (strBytes "root")
  let h := setRange h 297 (strBytes "root")
  fixHeaderChecksum h

/-- The long-name (LongLink) header emitted by `tar_write_file` for names
longer than 100 bytes; note the mode field is `0000644`, unlike the
directory variant. -/
def fileLongHeader (n : Nat) : List Nat :=
  let h := List.replicate 512 0
  let h := setRange h 0 (strBytes "././@LongLink")
  let h := setRange h 100 (strBytes "0000644\x00")
  let h := setRange h 108 (strBytes "0000000\x00")
  let h := setRange h 116 (strBytes "0000000\x00")
  let h := setRange h 124 (octalFmt 11 n ++ [0])
  let h := setRange h 148 (strBytes "        ")
  let h := setRange h 156 [76]
  let h := setRange h 257 (strBytes "ustar  \x00")
  let h := setRange h 265 (strBytes "root")
  let h := setRange h 297 (strBytes "root")
  fixHeaderChecksum h

/-- The regular file header emitted by `tar_write_file`
(typeflag '0', mode 0644, octal size field). -/
def fileRegHeader (size : Nat) (tarname : List Nat) : List Nat :=
  let h := List.replicate 512 0
  let h := setRange h 0 (tarname.take 100)
  let h := setRange h 100 (strBytes "0000644\x00")
  let h := setRange h 108 (strBytes "0000000\x00")
  let h := setRange h 116 (strBytes "0000000\x00")
  let h := setRange h 124 (octalFmt 11 size ++ [0])
  let h := setRange h 148 (strBytes "        ")
  let h := setRange h 156 [48]
  let h := setRange h 257 (strBytes "ustar  \x00")
  let h := setRange h 265 (strBytes "root")
  let h := setRange h 297 (strBytes "root")
  fixHeaderChecksum h

/-- `TarOutput::tar_write_dir`: the bytes appended to the tar stream for a
directory member named `tarname`. -/
def tarWriteDir (tarname : List Nat) : List Nat :=
  (if tarname.length > 100 then
    dirLongHeader tarname.length ++ tarname ++
      List.replicate ((512 - tarname.length % 512) % 512) 0
  else []) ++ dirRegHeader tarname

/-- The read/copy loop of `tar_write_file`: reads chunks of up to 512 bytes
until EOF, writing each chunk to the tar stream and (when a hash sink is
present) feeding it to the incremental hasher.  Returns
(bytes written, bytes fed to the hasher, running byte count).  The hasher
state is modelled as the accumulated list of bytes it has been fed; fuel is
the content length, always sufficient since each step consumes at least one
byte. -/
def readLoopAux (hashReq : Bool) : Nat → List Nat → List Nat × List Nat × Nat
  | 0, _ => ([], [], 0)
  | _ + 1, [] => ([], [], 0)
  | fuel + 1, c@(_ :: _) =>
    let chunk := c.take 512
    let r := readLoopAux hashReq fuel (c.drop 512)
    (chunk ++ r.1, (if hashReq then chunk else []) ++ r.2.1, chunk.length + r.2.2)

/-- The read/copy loop of `tar_write_file` over the whole file content. -/
def readLoop (hashReq : Bool) (content : List Nat) : List Nat × List Nat × Nat :=
  readLoopAux hashReq content.length content

/-- `TarOutput::tar_write_file`.  `sha512` abstracts the external SHA-512
implementation (finalization of a hasher fed the given bytes); `content` is
the actual byte content of the opened file; `size` is the size stated in
the header (from the walker's stat).  Returns (tar bytes, digest-sink
bytes); the size-mismatch panic becomes an error. -/
def tarWriteFile (sha512 : List Nat → List Nat) (hashReq : Bool)
    (content : List Nat) (size : Nat) (tarname : List Nat) :
    Except String (List Nat × List Nat) :=
  let long : List Nat :=
    if tarname.length > 100 then
      fileLongHeader tarname.length ++ tarname ++
        List.replicate
          (if tarname.length % 512 = 0 then 0 else 512 - tarname.length % 512) 0
    else []
  let r := readLoop hashReq content
  if r.2.2 ≠ size then
    Except.error "size while reading different from stat"
  else
    let padding := (512 - r.2.2 % 512) % 512
    Except.ok
      (long ++ fileRegHeader size tarname ++ r.1 ++ List.replicate padding 0,
       if hashReq then
         hexEncode (sha512 r.2.1) ++ strBytes "  " ++ tarname ++ [10]
       else [])

/-- `TarOutput::tar_end_marker`: ten 512-byte zero blocks. -/
def tarEndMarker : List Nat := List.replicate (10 * 512) 0

/-! ### Filesystem model and directory walker (DirWalkIterator) -/

/-- A node of the (immutable) filesystem tree being archived.  `mtime`
models the modification timestamp the filesystem stores but the program
never reads; `statSize` models the filesystem-dependent stat size of a
directory; symlink nodes directly carry their canonicalized target's
content (the model of a successful `canonicalize` plus stat of the
target). -/
inductive FSNode where
  | file (mtime : Nat) (content : List Nat)
  | symlinkFile (mtime : Nat) (content : List Nat)
  | dir (mtime statSize : Nat) (children : List (String × FSNode))
  | symlinkDir (mtime statSize : Nat) (children : List (String × FSNode))
deriving Repr

mutual
/-- Size measure of a tree node (for termination of the walk). -/
def nodeSize : FSNode → Nat
  | .file _ _ => 1
  | .symlinkFile _ _ => 1
  | .dir _ _ cs => 1 + childListSize cs
  | .symlinkDir _ _ cs => 1 + childListSize cs

/-- Total size measure of a list of named children. -/
def childListSize : List (String × FSNode) → Nat
  | [] => 0
  | c :: cs => nodeSize c.2 + childListSize cs
end

/-- The basenames of a children list are pairwise distinct (a real
filesystem guarantees this inside each directory). -/
def nodupNames : List (String × FSNode) → Bool
  | [] => true
  | c :: cs => cs.all (fun d => d.1 != c.1) && nodupNames cs

mutual
/-- Well-formedness of a tree: inside every directory the basenames of the
children are pairwise distinct. -/
def nodeWF : FSNode → Bool
  | .file _ _ => true
  | .symlinkFile _ _ => true
  | .dir _ _ cs => nodupNames cs && childrenWF cs
  | .symlinkDir _ _ cs => nodupNames cs && childrenWF cs

/-- Well-formedness of every node in a children list. -/
def childrenWF : List (String × FSNode) → Bool
  | [] => true
  | c :: cs => nodeWF c.2 && childrenWF cs
end

mutual
/-- Erase everything the program is specified to ignore: timestamps and
directory stat sizes.  Two trees with the same `eraseMeta` image have the
same names, kinds and file contents. -/
def eraseMeta : FSNode → FSNode
  | .file _ c => .file 0 c
  | .symlinkFile _ c => .symlinkFile 0 c
  | .dir _ _ cs => .dir 0 0 (eraseChildren cs)
  | .symlinkDir _ _ cs => .symlinkDir 0 0 (eraseChildren cs)

/-- `eraseMeta` on each child. -/
def eraseChildren : List (String × FSNode) → List (String × FSNode)
  | [] => []
  | c :: cs => (c.1, eraseMeta c.2) :: eraseChildren cs
end

/-- Lexicographic order on paths-as-component-lists: the model of the `Ord`
instance on `PathBuf` restricted to the relative paths handled here. -/
def pathLe : List String → List String → Bool
  | [], _ => true
  | _ :: _, [] => false
  | a :: as, b :: bs => if a < b then true else if b < a then false else pathLe as bs

/-- A pending stack entry: the path (relative to the walk's base
directory, mirroring `strip_prefix(basedir)`) together with the filesystem
object that the corresponding absolute path denotes. -/
abbrev StackEntry := List String × FSNode

/-- Non-strict ascending comparison of stack entries by path. -/
def entryLe (a b : StackEntry) : Prop := pathLe a.1 b.1 = true

/-- Non-strict descending comparison of stack entries by path: the model of
the comparator closure in `subs.sort_by(|a, b| b.cmp(a))`. -/
def entryGe (a b : StackEntry) : Prop := pathLe b.1 a.1 = true

instance : DecidableRel entryLe := fun a b => instDecidableEqBool (pathLe a.1 b.1) true
instance : DecidableRel entryGe := fun a b => instDecidableEqBool (pathLe b.1 a.1) true

/-- `DirWalkType` from src/main.rs.  The symlink variants carry the model
of the resolved target (the content, resp. children, found behind the
canonicalized path). -/
inductive DirWalkType where
  | Directory
  | File
  | SymlinkToFile (resolved : List Nat)
  | SymlinkToDirectory (resolved : List (String × FSNode))
deriving Repr

/-- `DirWalkItem` from src/main.rs; `node` stands in for `abspath` (it is
the filesystem object that the absolute path denotes). -/
structure DirWalkItem where
  relpath : List String
  node : FSNode
  typ : DirWalkType
  size : Option Nat
deriving Repr

/-- The options consumed by `DirWalkIterator` (minus the stack itself). -/
structure WalkOpts where
  ignoredName : String → Bool
  emptyDirsIgnored : Bool
  symlinksShouldAbort : Bool

/-- `is_allowed_name`: the basename matches no ignore pattern.  The regex
engine is external; `ignoredName` is the predicate it provides. -/
def isAllowedName (o : WalkOpts) (name : String) : Bool := !(o.ignoredName name)

/-- The unspecified order in which `read_dir` lists a directory: given the
path of the directory and its children, some permutation of the children.
(The bundled permutation proof records the only guarantee the OS gives.) -/
def ReadDirFn : Type :=
  (p : List String) → (cs : List (String × FSNode)) →
    { l : List (String × FSNode) // l.Perm cs }

/-- `read_dir` listing children in stored order. -/
def idReadDir : ReadDirFn := fun _ cs => ⟨cs, List.Perm.refl cs⟩

/-- Sum of `nodeSize` over the pending stack (termination measure). -/
def stackSize : List StackEntry → Nat
  | [] => 0
  | e :: rest => nodeSize e.2 + stackSize rest

theorem nodeSize_pos (n : FSNode) : 1 ≤ nodeSize n := by
  cases n <;> simp [nodeSize]

theorem childListSize_eq_sum (cs : List (String × FSNode)) :
    childListSize cs = (cs.map (fun c => nodeSize c.2)).sum := by
  induction cs with
  | nil => simp [childListSize]
  | cons c cs ih => simp [childListSize, ih]

theorem childListSize_perm {l1 l2 : List (String × FSNode)} (h : l1.Perm l2) :
    childListSize l1 = childListSize l2 := by
  rw [childListSize_eq_sum, childListSize_eq_sum]
  exact (h.map _).sum_eq

theorem childListSize_filter_le (p : String × FSNode → Bool)
    (cs : List (String × FSNode)) : childListSize (cs.filter p) ≤ childListSize cs := by
  induction cs with
  | nil => simp [childListSize]
  | cons c cs ih =>
    by_cases h : p c
    · simpa [List.filter_cons, h, childListSize] using ih
    · simp only [List.filter_cons, h, if_false, childListSize, Bool.false_eq_true]
      omega

theorem stackSize_eq_sum (l : List StackEntry) :
    stackSize l = (l.map (fun e => nodeSize e.2)).sum := by
  induction l with
  | nil => simp [stackSize]
  | cons e l ih => simp [stackSize, ih]

theorem stackSize_append (a b : List StackEntry) :
    stackSize (a ++ b) = stackSize a + stackSize b := by
  simp [stackSize_eq_sum]

theorem stackSize_perm {l1 l2 : List StackEntry} (h : l1.Perm l2) :
    stackSize l1 = stackSize l2 := by
  rw [stackSize_eq_sum, stackSize_eq_sum]
  exact (h.map _).sum_eq

theorem stackSize_entries (rp : List String) (subs : List (String × FSNode)) :
    stackSize (subs.map (fun c => (rp ++ [c.1], c.2))) = childListSize subs := by
  induction subs with
  | nil => simp [stackSize, childListSize]
  | cons c cs ih => simp [stackSize, childListSize, ih]

/-- `DirWalkIterator::next`, iterated to exhaustion.  The pending stack is
kept top-first (the Rust `Vec` pops from its end, so this list is that
`Vec` reversed; the Rust `append` of the descending-sorted batch therefore
becomes prepending the reversed batch).  Panics become errors. -/
def walkAll (o : WalkOpts) (readDir : ReadDirFn) :
    List StackEntry → Except String (List DirWalkItem)
  | [] => Except.ok []
  | (rp, n) :: rest =>
    match n with
    | .file _ c =>
      match walkAll o readDir rest with
      | .error e => .error e
      | .ok items =>
        .ok (⟨rp, n, .File, some c.length⟩ :: items)
    | .symlinkFile _ c =>
      if o.symlinksShouldAbort then .error "Found symlink, aborting."
      else
        match walkAll o readDir rest with
        | .error e => .error e
        | .ok items =>
          .ok (⟨rp, n, .SymlinkToFile c, some c.length⟩ :: items)
    | .symlinkDir _ s cs =>
      if o.symlinksShouldAbort then .error "Found symlink, aborting."
      else
        match walkAll o readDir rest with
        | .error e => .error e
        | .ok items =>
          .ok (⟨rp, n, .SymlinkToDirectory cs, some s⟩ :: items)
    | .dir _ _ cs =>
      let subs := (readDir rp cs).val.filter (fun c => isAllowedName o c.1)
      if subs.isEmpty && o.emptyDirsIgnored then
        walkAll o readDir rest
      else
        let entries := subs.map (fun c => (rp ++ [c.1], c.2))
        let pushed := (List.insertionSort entryGe entries).reverse
        match walkAll o readDir (pushed ++ rest) with
        | .error e => .error e
        | .ok items =>
          .ok (⟨rp, n, .Directory, none⟩ :: items)
termination_by stack => stackSize stack
decreasing_by
  · simp only [stackSize, nodeSize]
    omega
  · simp only [stackSize, nodeSize]
    omega
  · simp only [stackSize, nodeSize]
    omega
  · simp only [stackSize, nodeSize]
    omega
  · simp only [stackSize, stackSize_append, nodeSize]
    have h1 : stackSize
        ((List.insertionSort entryGe
          (((readDir rp cs).val.filter (fun c => isAllowedName o c.1)).map
            (fun c => (rp ++ [c.1], c.2)))).reverse) =
        childListSize ((readDir rp cs).val.filter (fun c => isAllowedName o c.1)) := by
      rw [stackSize_perm (List.reverse_perm _),
        stackSize_perm (List.perm_insertionSort _ _)]
      exact stackSize_entries _ _
    have h2 := childListSize_filter_le (fun c => isAllowedName o c.1) (readDir rp cs).val
    have h3 := childListSize_perm (readDir rp cs).property
    omega

mutual
/-- Modelled from the spec (§4.1, and used as the reference formulation of
the ordering invariant): emit the node, then each surviving child's whole
subtree in ascending path order, with the same shallow empty-directory
pruning, symlink-abort error, and symlink-to-directory treatment as the
code. -/
def specWalk (o : WalkOpts) (rp : List String) (n : FSNode) :
    Except String (List DirWalkItem) :=
  match n with
  | .file _ c => .ok [⟨rp, n, .File, some c.length⟩]
  | .symlinkFile _ c =>
    if o.symlinksShouldAbort then .error "Found symlink, aborting."
    else .ok [⟨rp, n, .SymlinkToFile c, some c.length⟩]
  | .symlinkDir _ s cs =>
    if o.symlinksShouldAbort then .error "Found symlink, aborting."
    else .ok [⟨rp, n, .SymlinkToDirectory cs, some s⟩]
  | .dir _ _ cs =>
    let subs := cs.filter (fun c => isAllowedName o c.1)
    if subs.isEmpty && o.emptyDirsIgnored then .ok []
    else
      match specWalkList o
          (List.insertionSort entryLe (subs.map (fun c => (rp ++ [c.1], c.2)))) with
      | .error e => .error e
      | .ok items => .ok (⟨rp, n, .Directory, none⟩ :: items)
termination_by 2 * nodeSize n
decreasing_by
  · simp only [nodeSize]
    have h1 : stackSize
        (List.insertionSort entryLe
          ((cs.filter (fun c => isAllowedName o c.1)).map
            (fun c => (rp ++ [c.1], c.2)))) =
        childListSize (cs.filter (fun c => isAllowedName o c.1)) := by
      rw [stackSize_perm (List.perm_insertionSort _ _)]
      exact stackSize_entries _ _
    have h2 := childListSize_filter_le (fun c => isAllowedName o c.1) cs
    omega

/-- Sequential composition of `specWalk` over a list of roots. -/
def specWalkList (o : WalkOpts) : List StackEntry → Except String (List DirWalkItem)
  | [] => .ok []
  | e :: rest =>
    match specWalk o e.1 e.2 with
    | .error er => .error er
    | .ok items =>
      match specWalkList o rest with
      | .error er => .error er
      | .ok items2 => .ok (items ++ items2)
termination_by l => 2 * stackSize l + 1
decreasing_by
  · simp only [stackSize]
    have := nodeSize_pos e.2
    omega
  · simp only [stackSize]
    have := nodeSize_pos e.2
    omega
end

/-! ### The main loop (fn main in src/main.rs) -/

/-- The bytes behind an `File::open` of the path a walk item denotes. -/
def nodeContent : FSNode → List Nat
  | .file _ c => c
  | .symlinkFile _ c => c
  | .dir _ _ _ => []
  | .symlinkDir _ _ _ => []

/-- The archive-internal name of a walk item: `main_dir_name` followed by
every component of `relpath` after the first, joined by the path
separator, as bytes. -/
def itemTarname (mainDir : String) (d : DirWalkItem) : List Nat :=
  strBytes (String.intercalate "/" (mainDir :: d.relpath.drop 1))

/-- The body of the `for d in DirWalkIterator::new(...)` loop of `main`,
folded over the whole item sequence: serialize every item, concatenating
the tar bytes and the digest-sink bytes in order. -/
def encodeItems (sha512 : List Nat → List Nat) (mainDir : String) (hashReq : Bool) :
    List DirWalkItem → Except String (List Nat × List Nat)
  | [] => .ok ([], [])
  | d :: rest =>
    match d.typ with
    | .Directory =>
      match encodeItems sha512 mainDir hashReq rest with
      | .error e => .error e
      | .ok r => .ok (tarWriteDir (itemTarname mainDir d ++ [47]) ++ r.1, r.2)
    | .SymlinkToDirectory _ =>
      match encodeItems sha512 mainDir hashReq rest with
      | .error e => .error e
      | .ok r => .ok (tarWriteDir (itemTarname mainDir d ++ [47]) ++ r.1, r.2)
    | .File =>
      match d.size with
      | none => .error "called unwrap on a None value"
      | some s =>
        match tarWriteFile sha512 hashReq (nodeContent d.node) s
            (itemTarname mainDir d) with
        | .error e => .error e
        | .ok w =>
          match encodeItems sha512 mainDir hashReq rest with
          | .error e => .error e
          | .ok r => .ok (w.1 ++ r.1, w.2 ++ r.2)
    | .SymlinkToFile c =>
      match d.size with
      | none => .error "called unwrap on a None value"
      | some s =>
        match tarWriteFile sha512 hashReq c s (itemTarname mainDir d) with
        | .error e => .error e
        | .ok w =>
          match encodeItems sha512 mainDir hashReq rest with
          | .error e => .error e
          | .ok r => .ok (w.1 ++ r.1, w.2 ++ r.2)

/-- `fn main`, after option parsing and sink selection: walk the tree
rooted at `inputName`/`root`, serialize every item, then write the end
marker.  Returns (tar stream bytes, digest stream bytes). -/
def runPipeline (sha512 : List Nat → List Nat) (mainDir : String) (o : WalkOpts)
    (hashReq : Bool) (readDir : ReadDirFn) (inputName : String) (root : FSNode) :
    Except String (List Nat × List Nat) :=
  match walkAll o readDir [([inputName], root)] with
  | .error e => .error e
  | .ok items =>
    match encodeItems sha512 mainDir hashReq items with
    | .error e => .error e
    | .ok r => .ok (r.1 ++ tarEndMarker, r.2)

/-! ### Toolkit: slices, sums, octal widths -/

theorem drop_append_len {l1 l2 : List Nat} {i : Nat} (h : l1.length = i) :
    List.drop i (l1 ++ l2) = l2 := by
  subst h; exact List.drop_left l1 l2

theorem take_append_len {l1 l2 : List Nat} {i : Nat} (h : l1.length = i) :
    List.take i (l1 ++ l2) = l1 := by
  subst h; exact List.take_left l1 l2

theorem drop_append_ge {l1 l2 : List Nat} {j : Nat} (h : l1.length ≤ j) :
    List.drop j (l1 ++ l2) = List.drop (j - l1.length) l2 := by
  rw [List.drop_append_eq_append_drop, List.drop_eq_nil_of_le h, List.nil_append]

theorem setRange_length {v r : List Nat} {i : Nat} (h : i + r.length ≤ v.length) :
    (setRange v i r).length = v.length := by
  simp only [setRange, List.length_append, List.length_take, List.length_drop]
  omega

theorem sliceGet_length {l : List Nat} {a n : Nat} (h : a + n ≤ l.length) :
    (sliceGet l a n).length = n := by
  simp only [sliceGet, List.length_take, List.length_drop]
  omega

theorem sliceGet_setRange_self {v r : List Nat} {i : Nat} (h : i + r.length ≤ v.length) :
    sliceGet (setRange v i r) i r.length = r := by
  have ht : (v.take i).length = i := by
    simp only [List.length_take]
    omega
  simp only [sliceGet, setRange, List.append_assoc]
  rw [drop_append_len ht, take_append_len rfl]

theorem sliceGet_setRange_before {v r : List Nat} {i j n : Nat}
    (hjn : j + n ≤ i) (hi : i ≤ v.length) :
    sliceGet (setRange v i r) j n = sliceGet v j n := by
  have hj : j ≤ (v.take i).length := by
    simp only [List.length_take]
    omega
  simp only [sliceGet, setRange, List.append_assoc]
  rw [List.drop_append_of_le_length hj]
  have hlen : n ≤ (List.drop j (v.take i)).length := by
    simp only [List.length_drop, List.length_take]
    omega
  rw [List.take_append_of_le_length hlen, List.drop_take i j v, List.take_take]
  congr 1
  omega

theorem sliceGet_setRange_after {v r : List Nat} {i j n : Nat}
    (hj : i + r.length ≤ j) (hi : i ≤ v.length) :
    sliceGet (setRange v i r) j n = sliceGet v j n := by
  have hA : (v.take i ++ r).length = i + r.length := by
    simp only [List.length_append, List.length_take]
    omega
  simp only [sliceGet, setRange]
  rw [drop_append_ge (by omega : (v.take i ++ r).length ≤ j), hA,
    List.drop_drop]
  congr 2
  omega

theorem mem_setRange {v r : List Nat} {i b : Nat} (h : b ∈ setRange v i r) :
    b ∈ v ∨ b ∈ r := by
  simp only [setRange, List.mem_append] at h
  rcases h with (h | h) | h
  · exact Or.inl (List.take_subset i v h)
  · exact Or.inr h
  · exact Or.inl (List.drop_subset _ v h)

theorem set_eq_setRange {v : List Nat} {i x : Nat} (h : i < v.length) :
    v.set i x = setRange v i [x] := by
  rw [List.set_eq_take_cons_drop x h]
  simp [setRange]

theorem take_drop_decompose (v : List Nat) (i m : Nat) :
    v.take i ++ ((v.drop i).take m ++ v.drop (i + m)) = v := by
  have h1 : v.drop (i + m) = (v.drop i).drop m := by
    rw [List.drop_drop]
  rw [h1, List.take_append_drop, List.take_append_drop]

/-- A list is unchanged by overwriting a slice with its current content. -/
theorem setRange_of_sliceGet_eq {v r : List Nat} {i : Nat}
    (h : sliceGet v i r.length = r) : setRange v i r = v := by
  rw [setRange, List.append_assoc]
  nth_rewrite 1 [← h]
  rw [sliceGet]
  exact take_drop_decompose v i r.length

theorem setRange_setRange_same {v r s : List Nat} {i : Nat}
    (h : r.length = s.length) (hb : i + r.length ≤ v.length) :
    setRange (setRange v i r) i s = setRange v i s := by
  have hA : (v.take i ++ r).length = i + r.length := by
    simp only [List.length_append, List.length_take]
    omega
  have hti : (setRange v i r).take i = v.take i := by
    rw [setRange, List.append_assoc]
    exact take_append_len (by simp only [List.length_take]; omega)
  have hdi : (setRange v i r).drop (i + s.length) = v.drop (i + s.length) := by
    rw [setRange, drop_append_ge (by omega : (v.take i ++ r).length ≤ i + s.length),
      hA, List.drop_drop]
    congr 1
    omega
  rw [setRange, hti, hdi]
  rfl

theorem foldl_add_init (a : Nat) (l : List Nat) :
    l.foldl (· + ·) a = a + l.foldl (· + ·) 0 := by
  induction l generalizing a with
  | nil => simp
  | cons x l ih =>
    simp only [List.foldl_cons, Nat.zero_add]
    rw [ih (a + x), ih x]
    omega

theorem sumBytes_cons (x : Nat) (l : List Nat) : sumBytes (x :: l) = x + sumBytes l := by
  simp only [sumBytes, List.foldl_cons, Nat.zero_add]
  exact foldl_add_init x l

theorem sumBytes_le (l : List Nat) (h : ∀ b ∈ l, b ≤ 255) :
    sumBytes l ≤ 255 * l.length := by
  induction l with
  | nil => simp [sumBytes]
  | cons x l ih =>
    rw [sumBytes_cons]
    have hx := h x (List.mem_cons_self x l)
    have hl := ih (fun b hb => h b (List.mem_cons_of_mem x hb))
    simp only [List.length_cons]
    omega

theorem octalDigitsAux_length_le {fuel n k : Nat} (h : n < 8 ^ k) :
    (octalDigitsAux fuel n).length ≤ k := by
  induction fuel generalizing n k with
  | zero => simp [octalDigitsAux]
  | succ fuel ih =>
    by_cases hn : n = 0
    · simp [octalDigitsAux, hn]
    · simp only [octalDigitsAux, hn, if_false, List.length_cons]
      cases k with
      | zero => simp at h; omega
      | succ k =>
        have hdiv : n / 8 < 8 ^ k := by
          rw [Nat.div_lt_iff_lt_mul (by norm_num)]
          calc n < 8 ^ (k + 1) := h
            _ = 8 ^ k * 8 := by ring
        have := ih hdiv
        omega

theorem octalDigitsAux_mem {fuel n b : Nat} (h : b ∈ octalDigitsAux fuel n) :
    48 ≤ b ∧ b ≤ 55 := by
  induction fuel generalizing n with
  | zero => simp [octalDigitsAux] at h
  | succ fuel ih =>
    by_cases hn : n = 0
    · simp [octalDigitsAux, hn] at h
    · simp only [octalDigitsAux, hn, if_false, List.mem_cons] at h
      rcases h with h | h
      · have := Nat.mod_lt n (show 0 < 8 by norm_num)
        omega
      · exact ih h

theorem octalFmt_mem {w n b : Nat} (h : b ∈ octalFmt w n) : 48 ≤ b ∧ b ≤ 55 := by
  simp only [octalFmt, List.mem_append, List.mem_replicate] at h
  rcases h with h | h
  · omega
  · by_cases hn : n = 0
    · simp [hn] at h
      omega
    · simp only [hn, if_false, List.mem_reverse] at h
      exact octalDigitsAux_mem h

theorem octalFmt_length {w n : Nat} (hw : 1 ≤ w) (h : n < 8 ^ w) :
    (octalFmt w n).length = w := by
  simp only [octalFmt, List.length_append, List.length_replicate]
  by_cases hn : n = 0
  · simp [hn]
    omega
  · simp only [hn, if_false, List.length_reverse]
    have := @octalDigitsAux_length_le n n w h
    omega

/-- A header build plan: a list of (offset, bytes) writes, the first list
entry being the write applied last (outermost). -/
def applyWrites (ws : List (Nat × List Nat)) (v : List Nat) : List Nat :=
  ws.foldr (fun w acc => setRange acc w.1 w.2) v

theorem applyWrites_length {ws : List (Nat × List Nat)} {v : List Nat}
    (h : ∀ w ∈ ws, w.1 + w.2.length ≤ v.length) :
    (applyWrites ws v).length = v.length := by
  induction ws with
  | nil => rfl
  | cons w ws ih =>
    have hih := ih (fun x hx => h x (List.mem_cons_of_mem w hx))
    simp only [applyWrites, List.foldr_cons] at *
    rw [setRange_length (by rw [hih]; exact h w (List.mem_cons_self w ws)), hih]

theorem applyWrites_mem {ws : List (Nat × List Nat)} {v : List Nat} {b : Nat}
    (h : b ∈ applyWrites ws v) : b ∈ v ∨ ∃ w ∈ ws, b ∈ w.2 := by
  induction ws with
  | nil => exact Or.inl h
  | cons w ws ih =>
    simp only [applyWrites, List.foldr_cons] at h
    rcases mem_setRange h with h2 | h2
    · rcases ih h2 with h3 | ⟨x, hx, hb⟩
      · exact Or.inl h3
      · exact Or.inr ⟨x, List.mem_cons_of_mem w hx, hb⟩
    · exact Or.inr ⟨w, List.mem_cons_self w ws, h2⟩

theorem applyWrites_cons (w : Nat × List Nat) (ws : List (Nat × List Nat)) (v : List Nat) :
    applyWrites (w :: ws) v = setRange (applyWrites ws v) w.1 w.2 := rfl

theorem applyWrites_slice_miss {ws : List (Nat × List Nat)} {v : List Nat} {a n : Nat}
    (hall : ∀ w ∈ ws, w.1 + w.2.length ≤ v.length)
    (hdis : ∀ w ∈ ws, a + n ≤ w.1 ∨ w.1 + w.2.length ≤ a) :
    sliceGet (applyWrites ws v) a n = sliceGet v a n := by
  induction ws with
  | nil => rfl
  | cons w ws ih =>
    have hlen : w.1 ≤ (applyWrites ws v).length := by
      rw [applyWrites_length (fun x hx => hall x (List.mem_cons_of_mem w hx))]
      have := hall w (List.mem_cons_self w ws)
      omega
    rw [applyWrites_cons]
    rcases hdis w (List.mem_cons_self w ws) with hd | hd
    · rw [sliceGet_setRange_before hd hlen]
      exact ih (fun x hx => hall x (List.mem_cons_of_mem w hx))
        (fun x hx => hdis x (List.mem_cons_of_mem w hx))
    · rw [sliceGet_setRange_after hd hlen]
      exact ih (fun x hx => hall x (List.mem_cons_of_mem w hx))
        (fun x hx => hdis x (List.mem_cons_of_mem w hx))

theorem applyWrites_slice_hit {pre post : List (Nat × List Nat)} {v r : List Nat} {i : Nat}
    (hall : ∀ w ∈ pre ++ (i, r) :: post, w.1 + w.2.length ≤ v.length)
    (hdis : ∀ w ∈ pre, i + r.length ≤ w.1 ∨ w.1 + w.2.length ≤ i) :
    sliceGet (applyWrites (pre ++ (i, r) :: post) v) i r.length = r := by
  induction pre with
  | nil =>
    rw [List.nil_append, applyWrites_cons]
    refine sliceGet_setRange_self ?_
    rw [applyWrites_length (fun x hx => hall x (List.mem_cons_of_mem _ hx))]
    exact hall (i, r) (List.mem_cons_self _ _)
  | cons w pre ih =>
    have hall2 : ∀ w2 ∈ pre ++ (i, r) :: post, w2.1 + w2.2.length ≤ v.length :=
      fun x hx => hall x (List.mem_cons_of_mem w hx)
    have hlen : w.1 ≤ (applyWrites (pre ++ (i, r) :: post) v).length := by
      rw [applyWrites_length hall2]
      have := hall w (List.mem_cons_self _ _)
      omega
    rw [List.cons_append, applyWrites_cons]
    rcases hdis w (List.mem_cons_self w pre) with hd | hd
    · rw [sliceGet_setRange_before hd hlen]
      exact ih hall2 (fun x hx => hdis x (List.mem_cons_of_mem w hx))
    · rw [sliceGet_setRange_after hd hlen]
      exact ih hall2 (fun x hx => hdis x (List.mem_cons_of_mem w hx))

theorem applyWrites_slice_skip {pre rest : List (Nat × List Nat)} {v : List Nat} {a n : Nat}
    (hall : ∀ w ∈ pre ++ rest, w.1 + w.2.length ≤ v.length)
    (hdis : ∀ w ∈ pre, a + n ≤ w.1 ∨ w.1 + w.2.length ≤ a) :
    sliceGet (applyWrites (pre ++ rest) v) a n = sliceGet (applyWrites rest v) a n := by
  induction pre with
  | nil => rfl
  | cons w pre ih =>
    have hall2 : ∀ x ∈ pre ++ rest, x.1 + x.2.length ≤ v.length :=
      fun x hx => hall x (List.mem_cons_of_mem w hx)
    have hlen : w.1 ≤ (applyWrites (pre ++ rest) v).length := by
      rw [applyWrites_length hall2]
      have := hall w (List.mem_cons_self _ _)
      omega
    rw [List.cons_append, applyWrites_cons]
    rcases hdis w (List.mem_cons_self w pre) with hd | hd
    · rw [sliceGet_setRange_before hd hlen]
      exact ih hall2 (fun x hx => hdis x (List.mem_cons_of_mem w hx))
    · rw [sliceGet_setRange_after hd hlen]
      exact ih hall2 (fun x hx => hdis x (List.mem_cons_of_mem w hx))


/-- Reading a 100-byte window at offset 0 after writing `r` (with
`r.length ≤ 100`) at offset 0 of an all-zero 512-byte block: the write
followed by zero fill. -/
theorem sliceGet_setRange_replicate_window {r : List Nat} (hr : r.length ≤ 100) :
    sliceGet (setRange (List.replicate 512 0) 0 r) 0 100 =
      r ++ List.replicate (100 - r.length) 0 := by
  have h1 : setRange (List.replicate 512 0) 0 r =
      r ++ List.replicate (512 - r.length) 0 := by
    rw [setRange, List.take_zero, List.nil_append, Nat.zero_add, List.drop_replicate]
  rw [h1, sliceGet, List.drop_zero, List.take_append_eq_append_take,
    List.take_of_length_le (by omega), List.take_replicate]
  congr 2
  omega

/-- The build plan of the regular directory header. -/
def dirRegWrites (tn : List Nat) : List (Nat × List Nat) :=
  [(297, strBytes "root"), (265, strBytes "root"), (257, strBytes "ustar  \x00"),
   (156, [53]), (148, strBytes "        "), (124, strBytes "00000000000\x00"),
   (116, strBytes "0000000\x00"), (108, strBytes "0000000\x00"),
   (100, strBytes "0000755\x00"), (0, tn.take 100)]

/-- The build plan of the directory LongLink header. -/
def dirLongWrites (n : Nat) : List (Nat × List Nat) :=
  [(297, strBytes "root"), (265, strBytes "root"), (257, strBytes "ustar  \x00"),
   (156, [76]), (148, strBytes "        "), (124, octalFmt 11 n ++ [0]),
   (116, strBytes "0000000\x00"), (108, strBytes "0000000\x00"),
   (100, strBytes "0000755\x00"), (0, strBytes "././@LongLink")]

/-- The build plan of the file LongLink header. -/
def fileLongWrites (n : Nat) : List (Nat × List Nat) :=
  [(297, strBytes "root"), (265, strBytes "root"), (257, strBytes "ustar  \x00"),
   (156, [76]), (148, strBytes "        "), (124, octalFmt 11 n ++ [0]),
   (116, strBytes "0000000\x00"), (108, strBytes "0000000\x00"),
   (100, strBytes "0000644\x00"), (0, strBytes "././@LongLink")]

/-- The build plan of the regular file header. -/
def fileRegWrites (size : Nat) (tn : List Nat) : List (Nat × List Nat) :=
  [(297, strBytes "root"), (265, strBytes "root"), (257, strBytes "ustar  \x00"),
   (156, [48]), (148, strBytes "        "), (124, octalFmt 11 size ++ [0]),
   (116, strBytes "0000000\x00"), (108, strBytes "0000000\x00"),
   (100, strBytes "0000644\x00"), (0, tn.take 100)]

theorem dirRegHeader_eq (tn : List Nat) :
    dirRegHeader tn =
      fixHeaderChecksum (applyWrites (dirRegWrites tn) (List.replicate 512 0)) := rfl

theorem dirLongHeader_eq (n : Nat) :
    dirLongHeader n =
      fixHeaderChecksum (applyWrites (dirLongWrites n) (List.replicate 512 0)) := rfl

theorem fileLongHeader_eq (n : Nat) :
    fileLongHeader n =
      fixHeaderChecksum (applyWrites (fileLongWrites n) (List.replicate 512 0)) := rfl

theorem fileRegHeader_eq (size : Nat) (tn : List Nat) :
    fileRegHeader size tn =
      fixHeaderChecksum (applyWrites (fileRegWrites size tn) (List.replicate 512 0)) := rfl

theorem dirRegWrites_bound (tn : List Nat) :
    ∀ w ∈ dirRegWrites tn, w.1 + w.2.length ≤ 512 := by
  intro w hw
  simp only [dirRegWrites, List.mem_cons, List.not_mem_nil, or_false] at hw
  rcases hw with h | h | h | h | h | h | h | h | h | h <;> subst h <;>
    first
      | decide
      | (simp only [List.length_take]; omega)

theorem dirLongWrites_bound {n : Nat} (hn : n < 8 ^ 11) :
    ∀ w ∈ dirLongWrites n, w.1 + w.2.length ≤ 512 := by
  intro w hw
  simp only [dirLongWrites, List.mem_cons, List.not_mem_nil, or_false] at hw
  rcases hw with h | h | h | h | h | h | h | h | h | h <;> subst h <;>
    first
      | decide
      | (simp only [List.length_append, List.length_cons, List.length_nil,
          octalFmt_length (by norm_num : 1 ≤ 11) hn]; omega)

theorem fileLongWrites_bound {n : Nat} (hn : n < 8 ^ 11) :
    ∀ w ∈ fileLongWrites n, w.1 + w.2.length ≤ 512 := by
  intro w hw
  simp only [fileLongWrites, List.mem_cons, List.not_mem_nil, or_false] at hw
  rcases hw with h | h | h | h | h | h | h | h | h | h <;> subst h <;>
    first
      | decide
      | (simp only [List.length_append, List.length_cons, List.length_nil,
          octalFmt_length (by norm_num : 1 ≤ 11) hn]; omega)

theorem fileRegWrites_bound {size : Nat} (tn : List Nat) (hn : size < 8 ^ 11) :
    ∀ w ∈ fileRegWrites size tn, w.1 + w.2.length ≤ 512 := by
  intro w hw
  simp only [fileRegWrites, List.mem_cons, List.not_mem_nil, or_false] at hw
  rcases hw with h | h | h | h | h | h | h | h | h | h <;> subst h <;>
    first
      | decide
      | (simp only [List.length_take]; omega)
      | (simp only [List.length_append, List.length_cons, List.length_nil,
          octalFmt_length (by norm_num : 1 ≤ 11) hn]; omega)

/-- Shared facts about a header before its checksum is fixed: length,
byte bound, and the resulting bound on the byte sum. -/
theorem headerFacts {ws : List (Nat × List Nat)}
    (hb : ∀ w ∈ ws, w.1 + w.2.length ≤ 512)
    (hm : ∀ w ∈ ws, ∀ b ∈ w.2, b ≤ 255) :
    (applyWrites ws (List.replicate 512 0)).length = 512
    ∧ (∀ b ∈ applyWrites ws (List.replicate 512 0), b ≤ 255)
    ∧ sumBytes (applyWrites ws (List.replicate 512 0)) < 262144 := by
  have hb2 : ∀ w ∈ ws, w.1 + w.2.length ≤ (List.replicate 512 (0 : Nat)).length := by
    intro w hw
    rw [List.length_replicate]
    exact hb w hw
  have hlen : (applyWrites ws (List.replicate 512 0)).length = 512 := by
    rw [applyWrites_length hb2, List.length_replicate]
  have hmem : ∀ b ∈ applyWrites ws (List.replicate 512 0), b ≤ 255 := by
    intro b hmem2
    rcases applyWrites_mem hmem2 with h | ⟨w, hw, hbw⟩
    · rw [List.eq_of_mem_replicate h]
      omega
    · exact hm w hw b hbw
  refine ⟨hlen, hmem, ?_⟩
  have := sumBytes_le _ hmem
  rw [hlen] at this
  omega

/-- What `_tar_fix_header_checksum` does to a well-formed 512-byte header
whose checksum field currently holds eight spaces. -/
theorem fixHeaderChecksum_facts {h : List Nat} (hlen : h.length = 512)
    (hmem : ∀ b ∈ h, b ≤ 255) (hsp : sliceGet h 148 8 = strBytes "        ") :
    (fixHeaderChecksum h).length = 512
    ∧ setRange (fixHeaderChecksum h) 148 (strBytes "        ") = h
    ∧ sliceGet (fixHeaderChecksum h) 148 8 = octalFmt 6 (sumBytes h) ++ [0, 32]
    ∧ (octalFmt 6 (sumBytes h)).length = 6
    ∧ (∀ j n, j + n ≤ 148 ∨ 156 ≤ j →
        sliceGet (fixHeaderChecksum h) j n = sliceGet h j n) := by
  have hsum : sumBytes h < 262144 := by
    have := sumBytes_le _ hmem
    rw [hlen] at this
    omega
  have h6 : (octalFmt 6 (sumBytes h)).length = 6 :=
    octalFmt_length (by norm_num) hsum
  have hR : (octalFmt 6 (sumBytes h) ++ [0, 32]).length = 8 := by
    simp only [List.length_append, h6]
    rfl
  have hbound : 148 + (octalFmt 6 (sumBytes h) ++ [0, 32]).length ≤ h.length := by
    rw [hR, hlen]
    omega
  have hflen : (fixHeaderChecksum h).length = 512 := by
    rw [fixHeaderChecksum, setRange_length hbound, hlen]
  refine ⟨hflen, ?_, ?_, h6, ?_⟩
  · rw [fixHeaderChecksum, setRange_setRange_same (by rw [hR]; rfl) (by omega)]
    exact setRange_of_sliceGet_eq (by rw [show (strBytes "        ").length = 8 from rfl]; exact hsp)
  · have := sliceGet_setRange_self hbound
    rw [hR] at this
    exact this
  · intro j n hj
    rcases hj with hj | hj
    · exact sliceGet_setRange_before (by omega) (by omega)
    · exact sliceGet_setRange_after (by rw [hR]; omega) (by omega)

theorem slice_hit_512 {pre post : List (Nat × List Nat)} {i : Nat} {r : List Nat}
    (hall : ∀ w ∈ pre ++ (i, r) :: post, w.1 + w.2.length ≤ 512)
    (hdis : ∀ w ∈ pre, i + r.length ≤ w.1 ∨ w.1 + w.2.length ≤ i) :
    sliceGet (applyWrites (pre ++ (i, r) :: post) (List.replicate 512 0)) i r.length = r :=
  applyWrites_slice_hit (fun w hw => by rw [List.length_replicate]; exact hall w hw) hdis

theorem slice_skip_512 {pre rest : List (Nat × List Nat)} {a n : Nat}
    (hall : ∀ w ∈ pre ++ rest, w.1 + w.2.length ≤ 512)
    (hdis : ∀ w ∈ pre, a + n ≤ w.1 ∨ w.1 + w.2.length ≤ a) :
    sliceGet (applyWrites (pre ++ rest) (List.replicate 512 0)) a n =
      sliceGet (applyWrites rest (List.replicate 512 0)) a n :=
  applyWrites_slice_skip (fun w hw => by rw [List.length_replicate]; exact hall w hw) hdis

theorem octalSize_length {n : Nat} (h : n < 8 ^ 11) : (octalFmt 11 n ++ [0]).length = 12 := by
  simp only [List.length_append, List.length_cons, List.length_nil,
    octalFmt_length (by norm_num : 1 ≤ 11) h]

theorem octalSize_mem {n b : Nat} (h : b ∈ octalFmt 11 n ++ [0]) : b ≤ 255 := by
  rcases List.mem_append.mp h with h2 | h2
  · have := octalFmt_mem h2
    omega
  · simp only [List.mem_cons, List.not_mem_nil, or_false] at h2
    omega

theorem dirRegWrites_mem (tn : List Nat) (hb : ∀ b ∈ tn, b ≤ 255) :
    ∀ w ∈ dirRegWrites tn, ∀ b ∈ w.2, b ≤ 255 := by
  intro w hw
  simp only [dirRegWrites, List.mem_cons, List.not_mem_nil, or_false] at hw
  rcases hw with h | h | h | h | h | h | h | h | h | h <;> subst h <;>
    first
      | decide
      | exact fun b hbm => hb b (List.take_subset 100 tn hbm)

theorem dirLongWrites_mem (n : Nat) :
    ∀ w ∈ dirLongWrites n, ∀ b ∈ w.2, b ≤ 255 := by
  intro w hw
  simp only [dirLongWrites, List.mem_cons, List.not_mem_nil, or_false] at hw
  rcases hw with h | h | h | h | h | h | h | h | h | h <;> subst h <;>
    first
      | decide
      | exact fun b hbm => octalSize_mem hbm

theorem fileLongWrites_mem (n : Nat) :
    ∀ w ∈ fileLongWrites n, ∀ b ∈ w.2, b ≤ 255 := by
  intro w hw
  simp only [fileLongWrites, List.mem_cons, List.not_mem_nil, or_false] at hw
  rcases hw with h | h | h | h | h | h | h | h | h | h <;> subst h <;>
    first
      | decide
      | exact fun b hbm => octalSize_mem hbm

theorem fileRegWrites_mem (size : Nat) (tn : List Nat) (hb : ∀ b ∈ tn, b ≤ 255) :
    ∀ w ∈ fileRegWrites size tn, ∀ b ∈ w.2, b ≤ 255 := by
  intro w hw
  simp only [fileRegWrites, List.mem_cons, List.not_mem_nil, or_false] at hw
  rcases hw with h | h | h | h | h | h | h | h | h | h <;> subst h <;>
    first
      | decide
      | exact fun b hbm => octalSize_mem hbm
      | exact fun b hbm => hb b (List.take_subset 100 tn hbm)

/-- The checksum property claim C5 asserts of every emitted header: the
checksum field holds exactly six octal digits, a NUL and a space, and the
six digits encode the byte sum of the header with the checksum field
itself read as eight ASCII spaces (i.e. of the final header, every other
field already at its final value). -/
def checksumOk (H : List Nat) : Prop :=
  sliceGet H 148 8 =
    octalFmt 6 (sumBytes (setRange H 148 (strBytes "        "))) ++ [0, 32]
  ∧ (octalFmt 6 (sumBytes (setRange H 148 (strBytes "        ")))).length = 6
  ∧ ∀ b ∈ octalFmt 6 (sumBytes (setRange H 148 (strBytes "        "))), 48 ≤ b ∧ b ≤ 55

theorem checksumOk_of_facts {h : List Nat} (hlen : h.length = 512)
    (hmem : ∀ b ∈ h, b ≤ 255) (hsp : sliceGet h 148 8 = strBytes "        ") :
    checksumOk (fixHeaderChecksum h) := by
  obtain ⟨_, hrestore, hslice, h6, _⟩ := fixHeaderChecksum_facts hlen hmem hsp
  refine ⟨?_, ?_, ?_⟩ <;> rw [hrestore]
  · exact hslice
  · exact h6
  · exact fun b hb => octalFmt_mem hb

theorem dirLongHeader_facts {n : Nat} (hn : n < 8 ^ 11) :
    (dirLongHeader n).length = 512
    ∧ sliceGet (dirLongHeader n) 0 13 = strBytes "././@LongLink"
    ∧ sliceGet (dirLongHeader n) 100 8 = strBytes "0000755\x00"
    ∧ sliceGet (dirLongHeader n) 124 12 = octalFmt 11 n ++ [0]
    ∧ sliceGet (dirLongHeader n) 156 1 = [76]
    ∧ checksumOk (dirLongHeader n) := by
  have hWb := dirLongWrites_bound hn
  have hWm := dirLongWrites_mem n
  obtain ⟨hplen, hpmem, hpsum⟩ := headerFacts hWb hWm
  have hsp : sliceGet (applyWrites (dirLongWrites n) (List.replicate 512 0)) 148 8 =
      strBytes "        " := by
    have hs : dirLongWrites n =
        [(297, strBytes "root"), (265, strBytes "root"), (257, strBytes "ustar  \x00"),
         (156, [76])] ++ (148, strBytes "        ") ::
        [(124, octalFmt 11 n ++ [0]), (116, strBytes "0000000\x00"),
         (108, strBytes "0000000\x00"), (100, strBytes "0000755\x00"),
         (0, strBytes "././@LongLink")] := rfl
    have hWb2 := hWb
    rw [hs] at hWb2 ⊢
    exact slice_hit_512 hWb2 (by decide)
  obtain ⟨hflen, hrestore, hcs, h6, hpass⟩ := fixHeaderChecksum_facts hplen hpmem hsp
  rw [dirLongHeader_eq]
  refine ⟨hflen, ?_, ?_, ?_, ?_, checksumOk_of_facts hplen hpmem hsp⟩
  · rw [hpass 0 13 (by omega)]
    have hs : dirLongWrites n =
        [(297, strBytes "root"), (265, strBytes "root"), (257, strBytes "ustar  \x00"),
         (156, [76]), (148, strBytes "        "), (124, octalFmt 11 n ++ [0]),
         (116, strBytes "0000000\x00"), (108, strBytes "0000000\x00"),
         (100, strBytes "0000755\x00")] ++ (0, strBytes "././@LongLink") :: [] := rfl
    have hWb2 := hWb
    rw [hs] at hWb2 ⊢
    refine slice_hit_512 hWb2 ?_
    intro w hw
    simp only [List.mem_cons, List.not_mem_nil, or_false] at hw
    rcases hw with h | h | h | h | h | h | h | h | h <;> subst h <;>
      first
        | decide
        | (left; show 0 + (strBytes "././@LongLink").length ≤ 124; decide)
  · rw [hpass 100 8 (by omega)]
    have hs : dirLongWrites n =
        [(297, strBytes "root"), (265, strBytes "root"), (257, strBytes "ustar  \x00"),
         (156, [76]), (148, strBytes "        "), (124, octalFmt 11 n ++ [0]),
         (116, strBytes "0000000\x00"), (108, strBytes "0000000\x00")] ++
        (100, strBytes "0000755\x00") :: [(0, strBytes "././@LongLink")] := rfl
    have hWb2 := hWb
    rw [hs] at hWb2 ⊢
    refine slice_hit_512 hWb2 ?_
    intro w hw
    simp only [List.mem_cons, List.not_mem_nil, or_false] at hw
    rcases hw with h | h | h | h | h | h | h | h <;> subst h <;>
      first
        | decide
        | (left; show 100 + (strBytes "0000755\x00").length ≤ 124; decide)
  · rw [hpass 124 12 (by omega)]
    have hs : dirLongWrites n =
        [(297, strBytes "root"), (265, strBytes "root"), (257, strBytes "ustar  \x00"),
         (156, [76]), (148, strBytes "        ")] ++ (124, octalFmt 11 n ++ [0]) ::
        [(116, strBytes "0000000\x00"), (108, strBytes "0000000\x00"),
         (100, strBytes "0000755\x00"), (0, strBytes "././@LongLink")] := rfl
    have hWb2 := hWb
    rw [hs] at hWb2 ⊢
    have h12 := octalSize_length hn
    have := slice_hit_512 hWb2 (by
      intro w hw
      simp only [List.mem_cons, List.not_mem_nil, or_false] at hw
      rcases hw with h | h | h | h | h <;> subst h <;> rw [h12] <;> decide)
    rw [h12] at this
    exact this
  · rw [hpass 156 1 (by omega)]
    have hs : dirLongWrites n =
        [(297, strBytes "root"), (265, strBytes "root"), (257, strBytes "ustar  \x00")] ++
        (156, ([76] : List Nat)) :: [(148, strBytes "        "), (124, octalFmt 11 n ++ [0]),
         (116, strBytes "0000000\x00"), (108, strBytes "0000000\x00"),
         (100, strBytes "0000755\x00"), (0, strBytes "././@LongLink")] := rfl
    have hWb2 := hWb
    rw [hs] at hWb2 ⊢
    exact slice_hit_512 hWb2 (by decide)

theorem fileLongHeader_facts {n : Nat} (hn : n < 8 ^ 11) :
    (fileLongHeader n).length = 512
    ∧ sliceGet (fileLongHeader n) 0 13 = strBytes "././@LongLink"
    ∧ sliceGet (fileLongHeader n) 100 8 = strBytes "0000644\x00"
    ∧ sliceGet (fileLongHeader n) 124 12 = octalFmt 11 n ++ [0]
    ∧ sliceGet (fileLongHeader n) 156 1 = [76]
    ∧ checksumOk (fileLongHeader n) := by
  have hWb := fileLongWrites_bound hn
  have hWm := fileLongWrites_mem n
  obtain ⟨hplen, hpmem, hpsum⟩ := headerFacts hWb hWm
  have hsp : sliceGet (applyWrites (fileLongWrites n) (List.replicate 512 0)) 148 8 =
      strBytes "        " := by
    have hs : fileLongWrites n =
        [(297, strBytes "root"), (265, strBytes "root"), (257, strBytes "ustar  \x00"),
         (156, [76])] ++ (148, strBytes "        ") ::
        [(124, octalFmt 11 n ++ [0]), (116, strBytes "0000000\x00"),
         (108, strBytes "0000000\x00"), (100, strBytes "0000644\x00"),
         (0, strBytes "././@LongLink")] := rfl
    have hWb2 := hWb
    rw [hs] at hWb2 ⊢
    exact slice_hit_512 hWb2 (by decide)
  obtain ⟨hflen, hrestore, hcs, h6, hpass⟩ := fixHeaderChecksum_facts hplen hpmem hsp
  rw [fileLongHeader_eq]
  refine ⟨hflen, ?_, ?_, ?_, ?_, checksumOk_of_facts hplen hpmem hsp⟩
  · rw [hpass 0 13 (by omega)]
    have hs : fileLongWrites n =
        [(297, strBytes "root"), (265, strBytes "root"), (257, strBytes "ustar  \x00"),
         (156, [76]), (148, strBytes "        "), (124, octalFmt 11 n ++ [0]),
         (116, strBytes "0000000\x00"), (108, strBytes "0000000\x00"),
         (100, strBytes "0000644\x00")] ++ (0, strBytes "././@LongLink") :: [] := rfl
    have hWb2 := hWb
    rw [hs] at hWb2 ⊢
    refine slice_hit_512 hWb2 ?_
    intro w hw
    simp only [List.mem_cons, List.not_mem_nil, or_false] at hw
    rcases hw with h | h | h | h | h | h | h | h | h <;> subst h <;>
      first
        | decide
        | (left; show 0 + (strBytes "././@LongLink").length ≤ 124; decide)
  · rw [hpass 100 8 (by omega)]
    have hs : fileLongWrites n =
        [(297, strBytes "root"), (265, strBytes "root"), (257, strBytes "ustar  \x00"),
         (156, [76]), (148, strBytes "        "), (124, octalFmt 11 n ++ [0]),
         (116, strBytes "0000000\x00"), (108, strBytes "0000000\x00")] ++
        (100, strBytes "0000644\x00") :: [(0, strBytes "././@LongLink")] := rfl
    have hWb2 := hWb
    rw [hs] at hWb2 ⊢
    refine slice_hit_512 hWb2 ?_
    intro w hw
    simp only [List.mem_cons, List.not_mem_nil, or_false] at hw
    rcases hw with h | h | h | h | h | h | h | h <;> subst h <;>
      first
        | decide
        | (left; show 100 + (strBytes "0000644\x00").length ≤ 124; decide)
  · rw [hpass 124 12 (by omega)]
    have hs : fileLongWrites n =
        [(297, strBytes "root"), (265, strBytes "root"), (257, strBytes "ustar  \x00"),
         (156, [76]), (148, strBytes "        ")] ++ (124, octalFmt 11 n ++ [0]) ::
        [(116, strBytes "0000000\x00"), (108, strBytes "0000000\x00"),
         (100, strBytes "0000644\x00"), (0, strBytes "././@LongLink")] := rfl
    have hWb2 := hWb
    rw [hs] at hWb2 ⊢
    have h12 := octalSize_length hn
    have := slice_hit_512 hWb2 (by
      intro w hw
      simp only [List.mem_cons, List.not_mem_nil, or_false] at hw
      rcases hw with h | h | h | h | h <;> subst h <;> rw [h12] <;> decide)
    rw [h12] at this
    exact this
  · rw [hpass 156 1 (by omega)]
    have hs : fileLongWrites n =
        [(297, strBytes "root"), (265, strBytes "root"), (257, strBytes "ustar  \x00")] ++
        (156, ([76] : List Nat)) :: [(148, strBytes "        "), (124, octalFmt 11 n ++ [0]),
         (116, strBytes "0000000\x00"), (108, strBytes "0000000\x00"),
         (100, strBytes "0000644\x00"), (0, strBytes "././@LongLink")] := rfl
    have hWb2 := hWb
    rw [hs] at hWb2 ⊢
    exact slice_hit_512 hWb2 (by decide)

theorem dirRegHeader_facts {tn : List Nat} (hb : ∀ b ∈ tn, b ≤ 255) :
    (dirRegHeader tn).length = 512
    ∧ sliceGet (dirRegHeader tn) 0 100 = tn.take 100 ++ List.replicate (100 - tn.length) 0
    ∧ sliceGet (dirRegHeader tn) 100 8 = strBytes "0000755\x00"
    ∧ sliceGet (dirRegHeader tn) 156 1 = [53]
    ∧ checksumOk (dirRegHeader tn) := by
  have hWb := dirRegWrites_bound tn
  have hWm := dirRegWrites_mem tn hb
  obtain ⟨hplen, hpmem, hpsum⟩ := headerFacts hWb hWm
  have hsp : sliceGet (applyWrites (dirRegWrites tn) (List.replicate 512 0)) 148 8 =
      strBytes "        " := by
    have hs : dirRegWrites tn =
        [(297, strBytes "root"), (265, strBytes "root"), (257, strBytes "ustar  \x00"),
         (156, [53])] ++ (148, strBytes "        ") ::
        [(124, strBytes "00000000000\x00"), (116, strBytes "0000000\x00"),
         (108, strBytes "0000000\x00"), (100, strBytes "0000755\x00"),
         (0, tn.take 100)] := rfl
    have hWb2 := hWb
    rw [hs] at hWb2 ⊢
    exact slice_hit_512 hWb2 (by decide)
  obtain ⟨hflen, hrestore, hcs, h6, hpass⟩ := fixHeaderChecksum_facts hplen hpmem hsp
  rw [dirRegHeader_eq]
  refine ⟨hflen, ?_, ?_, ?_, checksumOk_of_facts hplen hpmem hsp⟩
  · rw [hpass 0 100 (by omega)]
    have hs : dirRegWrites tn =
        [(297, strBytes "root"), (265, strBytes "root"), (257, strBytes "ustar  \x00"),
         (156, [53]), (148, strBytes "        "), (124, strBytes "00000000000\x00"),
         (116, strBytes "0000000\x00"), (108, strBytes "0000000\x00"),
         (100, strBytes "0000755\x00")] ++ [(0, tn.take 100)] := rfl
    have hWb2 := hWb
    rw [hs] at hWb2 ⊢
    rw [slice_skip_512 hWb2 (by decide)]
    have hwin := sliceGet_setRange_replicate_window
      (r := tn.take 100) (by simp only [List.length_take]; omega)
    rw [show applyWrites [(0, tn.take 100)] (List.replicate 512 0) =
      setRange (List.replicate 512 0) 0 (tn.take 100) from rfl, hwin]
    have hmin : 100 - (tn.take 100).length = 100 - tn.length := by
      simp only [List.length_take]
      omega
    rw [hmin]
  · rw [hpass 100 8 (by omega)]
    have hs : dirRegWrites tn =
        [(297, strBytes "root"), (265, strBytes "root"), (257, strBytes "ustar  \x00"),
         (156, [53]), (148, strBytes "        "), (124, strBytes "00000000000\x00"),
         (116, strBytes "0000000\x00"), (108, strBytes "0000000\x00")] ++
        (100, strBytes "0000755\x00") :: [(0, tn.take 100)] := rfl
    have hWb2 := hWb
    rw [hs] at hWb2 ⊢
    exact slice_hit_512 hWb2 (by decide)
  · rw [hpass 156 1 (by omega)]
    have hs : dirRegWrites tn =
        [(297, strBytes "root"), (265, strBytes "root"), (257, strBytes "ustar  \x00")] ++
        (156, ([53] : List Nat)) :: [(148, strBytes "        "),
         (124, strBytes "00000000000\x00"), (116, strBytes "0000000\x00"),
         (108, strBytes "0000000\x00"), (100, strBytes "0000755\x00"),
         (0, tn.take 100)] := rfl
    have hWb2 := hWb
    rw [hs] at hWb2 ⊢
    exact slice_hit_512 hWb2 (by decide)

theorem fileRegHeader_facts {size : Nat} {tn : List Nat} (hb : ∀ b ∈ tn, b ≤ 255)
    (hsz : size < 8 ^ 11) :
    (fileRegHeader size tn).length = 512
    ∧ sliceGet (fileRegHeader size tn) 0 100 =
        tn.take 100 ++ List.replicate (100 - tn.length) 0
    ∧ sliceGet (fileRegHeader size tn) 124 12 = octalFmt 11 size ++ [0]
    ∧ sliceGet (fileRegHeader size tn) 156 1 = [48]
    ∧ checksumOk (fileRegHeader size tn) := by
  have hWb := fileRegWrites_bound tn hsz
  have hWm := fileRegWrites_mem size tn hb
  obtain ⟨hplen, hpmem, hpsum⟩ := headerFacts hWb hWm
  have hsp : sliceGet (applyWrites (fileRegWrites size tn) (List.replicate 512 0)) 148 8 =
      strBytes "        " := by
    have hs : fileRegWrites size tn =
        [(297, strBytes "root"), (265, strBytes "root"), (257, strBytes "ustar  \x00"),
         (156, [48])] ++ (148, strBytes "        ") ::
        [(124, octalFmt 11 size ++ [0]), (116, strBytes "0000000\x00"),
         (108, strBytes "0000000\x00"), (100, strBytes "0000644\x00"),
         (0, tn.take 100)] := rfl
    have hWb2 := hWb
    rw [hs] at hWb2 ⊢
    exact slice_hit_512 hWb2 (by decide)
  obtain ⟨hflen, hrestore, hcs, h6, hpass⟩ := fixHeaderChecksum_facts hplen hpmem hsp
  rw [fileRegHeader_eq]
  refine ⟨hflen, ?_, ?_, ?_, checksumOk_of_facts hplen hpmem hsp⟩
  · rw [hpass 0 100 (by omega)]
    have hs : fileRegWrites size tn =
        [(297, strBytes "root"), (265, strBytes "root"), (257, strBytes "ustar  \x00"),
         (156, [48]), (148, strBytes "        "), (124, octalFmt 11 size ++ [0]),
         (116, strBytes "0000000\x00"), (108, strBytes "0000000\x00"),
         (100, strBytes "0000644\x00")] ++ [(0, tn.take 100)] := rfl
    have hWb2 := hWb
    rw [hs] at hWb2 ⊢
    rw [slice_skip_512 hWb2 (by
      intro w hw
      simp only [List.mem_cons, List.not_mem_nil, or_false] at hw
      rcases hw with h | h | h | h | h | h | h | h | h <;> subst h <;>
        first
          | decide
          | (left; show 0 + 100 ≤ 124; decide))]
    have hwin := sliceGet_setRange_replicate_window
      (r := tn.take 100) (by simp only [List.length_take]; omega)
    rw [show applyWrites [(0, tn.take 100)] (List.replicate 512 0) =
      setRange (List.replicate 512 0) 0 (tn.take 100) from rfl, hwin]
    have hmin : 100 - (tn.take 100).length = 100 - tn.length := by
      simp only [List.length_take]
      omega
    rw [hmin]
  · rw [hpass 124 12 (by omega)]
    have hs : fileRegWrites size tn =
        [(297, strBytes "root"), (265, strBytes "root"), (257, strBytes "ustar  \x00"),
         (156, [48]), (148, strBytes "        ")] ++ (124, octalFmt 11 size ++ [0]) ::
        [(116, strBytes "0000000\x00"), (108, strBytes "0000000\x00"),
         (100, strBytes "0000644\x00"), (0, tn.take 100)] := rfl
    have hWb2 := hWb
    rw [hs] at hWb2 ⊢
    have h12 := octalSize_length hsz
    have := slice_hit_512 hWb2 (by
      intro w hw
      simp only [List.mem_cons, List.not_mem_nil, or_false] at hw
      rcases hw with h | h | h | h | h <;> subst h <;> rw [h12] <;> decide)
    rw [h12] at this
    exact this
  · rw [hpass 156 1 (by omega)]
    have hs : fileRegWrites size tn =
        [(297, strBytes "root"), (265, strBytes "root"), (257, strBytes "ustar  \x00")] ++
        (156, ([48] : List Nat)) :: [(148, strBytes "        "),
         (124, octalFmt 11 size ++ [0]), (116, strBytes "0000000\x00"),
         (108, strBytes "0000000\x00"), (100, strBytes "0000644\x00"),
         (0, tn.take 100)] := rfl
    have hWb2 := hWb
    rw [hs] at hWb2 ⊢
    exact slice_hit_512 hWb2 (by decide)

theorem sliceGet_append_left {A B : List Nat} {a n : Nat} (h : a + n ≤ A.length) :
    sliceGet (A ++ B) a n = sliceGet A a n := by
  rw [sliceGet, sliceGet, List.drop_append_of_le_length (by omega),
    List.take_append_of_le_length (by simp only [List.length_drop]; omega)]

theorem sliceGet_append_right {A B : List Nat} {k n : Nat} (h : A.length ≤ k) :
    sliceGet (A ++ B) k n = sliceGet B (k - A.length) n := by
  rw [sliceGet, sliceGet, drop_append_ge h]

theorem sliceGet_all {l : List Nat} {n : Nat} (h : l.length = n) :
    sliceGet l 0 n = l := by
  rw [sliceGet, List.drop_zero, List.take_of_length_le (by omega)]

theorem readLoopAux_spec (hq : Bool) :
    ∀ fuel c, c.length ≤ fuel →
      readLoopAux hq fuel c = (c, (if hq then c else []), c.length) := by
  intro fuel
  induction fuel with
  | zero =>
    intro c hc
    have : c = [] := List.eq_nil_of_length_eq_zero (by omega)
    subst this
    cases hq <;> rfl
  | succ fuel ih =>
    intro c hc
    match c with
    | [] => cases hq <;> rfl
    | x :: xs =>
      rw [readLoopAux]
      have hdrop : ((x :: xs).drop 512).length ≤ fuel := by
        simp only [List.length_drop, List.length_cons] at *
        omega
      rw [ih _ hdrop]
      have htd : (x :: xs).take 512 ++ (x :: xs).drop 512 = x :: xs :=
        List.take_append_drop 512 (x :: xs)
      have hlen : ((x :: xs).take 512).length + ((x :: xs).drop 512).length =
          (x :: xs).length := by
        simp only [List.length_take, List.length_drop, List.length_cons]
        omega
      cases hq <;> simp only [if_true, if_false] <;> exact Prod.ext htd (Prod.ext (by simp [htd]) hlen)

theorem readLoop_spec (hq : Bool) (c : List Nat) :
    readLoop hq c = (c, (if hq then c else []), c.length) :=
  readLoopAux_spec hq c.length c (Nat.le_refl _)

/-- A file write whose stated size matches the true content length
succeeds, and the exact bytes it appends to both sinks. -/
theorem tarWriteFile_eq (sha512 : List Nat → List Nat) (hq : Bool) (content tn : List Nat) :
    tarWriteFile sha512 hq content content.length tn =
      Except.ok
        ((if tn.length > 100 then
            fileLongHeader tn.length ++ tn ++
              List.replicate (if tn.length % 512 = 0 then 0 else 512 - tn.length % 512) 0
          else []) ++ fileRegHeader content.length tn ++ content ++
            List.replicate ((512 - content.length % 512) % 512) 0,
         if hq then hexEncode (sha512 content) ++ strBytes "  " ++ tn ++ [10] else []) := by
  cases hq <;>
    simp only [tarWriteFile, readLoop_spec, ne_eq, not_true_eq_false, if_neg, if_pos,
      ite_self, if_true, if_false] <;>
    simp

/-- C7: when the byte count actually read differs from the size declared
in the header (source shrank or grew), `tar_write_file` fails with the
size-mismatch condition instead of completing the member. -/
theorem C7_size_mismatch (sha512 : List Nat → List Nat) (hashReq : Bool)
    (content : List Nat) (size : Nat) (tarname : List Nat)
    (h : content.length ≠ size) :
    tarWriteFile sha512 hashReq content size tarname =
      Except.error "size while reading different from stat" := by
  rw [tarWriteFile, readLoop_spec]
  simp [h]

theorem C7_size_mismatch_witness :
    ([1, 2, 3] : List Nat).length ≠ 5
    ∧ tarWriteFile (fun l => l) true [1, 2, 3] 5 (strBytes "n") =
        Except.error "size while reading different from stat" :=
  ⟨by decide, C7_size_mismatch (fun l => l) true [1, 2, 3] 5 (strBytes "n") (by decide)⟩

/-- C10: for any 512-byte header of genuine bytes, the checksum sum is at
most 512 * 255 = 130560 < 8 ^ 6, so the formatted checksum is exactly six
octal digits and the 8-byte write (6 digits, NUL, space) exactly fills
bytes 148..156; the fixed-up header is still 512 bytes. -/
theorem C10_checksum_no_overflow (h : List Nat) (hlen : h.length = 512)
    (hb : ∀ b ∈ h, b ≤ 255) :
    sumBytes h ≤ 130560
    ∧ sumBytes h < 262144
    ∧ (octalFmt 6 (sumBytes h)).length = 6
    ∧ (octalFmt 6 (sumBytes h) ++ [0, 32]).length = 8
    ∧ (fixHeaderChecksum h).length = 512 := by
  have h1 : sumBytes h ≤ 130560 := by
    have := sumBytes_le h hb
    rw [hlen] at this
    omega
  have h2 : sumBytes h < 262144 := by omega
  have h3 : (octalFmt 6 (sumBytes h)).length = 6 :=
    octalFmt_length (by norm_num) h2
  have h4 : (octalFmt 6 (sumBytes h) ++ [0, 32]).length = 8 := by
    simp only [List.length_append, h3]
    rfl
  refine ⟨h1, h2, h3, h4, ?_⟩
  rw [fixHeaderChecksum, setRange_length (by rw [h4]; omega), hlen]

theorem C10_checksum_no_overflow_witness :
    (List.replicate 512 (255 : Nat)).length = 512
    ∧ (∀ b ∈ List.replicate 512 (255 : Nat), b ≤ 255)
    ∧ sumBytes (List.replicate 512 (255 : Nat)) ≤ 130560
    ∧ (fixHeaderChecksum (List.replicate 512 (255 : Nat))).length = 512 := by
  have h1 : (List.replicate 512 (255 : Nat)).length = 512 := by decide
  have h2 : ∀ b ∈ List.replicate 512 (255 : Nat), b ≤ 255 := by decide
  have h3 := C10_checksum_no_overflow (List.replicate 512 255) h1 h2
  exact ⟨h1, h2, h3.1, h3.2.2.2.2⟩

/-- C5: every emitted 512-byte header (regular directory, directory
long-name, regular file, file long-name) carries at bytes 148..156 the
checksum computed over the whole header with the checksum field read as
eight spaces — all other fields at their final value — formatted as six
octal digits, NUL, space (`checksumOk`). -/
theorem C5_checksum_valid (tn : List Nat) (size n : Nat)
    (hb : ∀ b ∈ tn, b ≤ 255) (hn : n < 8 ^ 11) (hsz : size < 8 ^ 11) :
    checksumOk (dirRegHeader tn) ∧ checksumOk (dirLongHeader n)
    ∧ checksumOk (fileRegHeader size tn) ∧ checksumOk (fileLongHeader n) :=
  ⟨(dirRegHeader_facts hb).2.2.2.2, (dirLongHeader_facts hn).2.2.2.2.2,
   (fileRegHeader_facts hb hsz).2.2.2.2, (fileLongHeader_facts hn).2.2.2.2.2⟩

theorem C5_checksum_valid_witness :
    (∀ b ∈ strBytes "d/", b ≤ 255)
    ∧ checksumOk (dirRegHeader (strBytes "d/"))
    ∧ checksumOk (fileLongHeader 101) := by
  have hb : ∀ b ∈ strBytes "d/", b ≤ 255 := by decide
  have h := C5_checksum_valid (strBytes "d/") 3 101 hb (by norm_num) (by norm_num)
  exact ⟨hb, h.1, h.2.2.2⟩

/-- C4 counterexample: the long-name header that `tar_write_file` emits
carries mode 0000644, not the claimed fixed 0000755 (src/main.rs line 256
vs line 211). -/
theorem C4_counterexample :
    ¬ sliceGet (fileLongHeader 101) 100 8 = strBytes "0000755\x00" := by
  have h := (fileLongHeader_facts (n := 101) (by norm_num)).2.2.1
  rw [h]
  decide

/-- C4 amended: a long-name header preceding a directory header carries
the fixed octal mode 0000755 in bytes 100..108, while a long-name header
preceding a file header carries 0000644 there. -/
theorem C4_long_header_modes {n : Nat} (hn : n < 8 ^ 11) :
    sliceGet (dirLongHeader n) 100 8 = strBytes "0000755\x00"
    ∧ sliceGet (fileLongHeader n) 100 8 = strBytes "0000644\x00" :=
  ⟨(dirLongHeader_facts hn).2.2.1, (fileLongHeader_facts hn).2.2.1⟩

theorem C4_long_header_modes_witness :
    sliceGet (dirLongHeader 101) 100 8 = strBytes "0000755\x00"
    ∧ sliceGet (fileLongHeader 101) 100 8 = strBytes "0000644\x00" :=
  C4_long_header_modes (by norm_num)

/-- C3: names longer than 100 bytes get a long-name record — a 512-byte
header with typeflag 'L', name "././@LongLink" and size = the name length —
then the literal name bytes zero-padded to a 512-byte boundary, then
immediately the regular header whose name field holds exactly the first
100 bytes; names of at most 100 bytes get no long-name record and their
whole name (zero-filled) in the name field.  Stated for both the
directory and the file encoder; the hypotheses keep the embedding inside
the region where the Rust slice writes cannot panic (genuine bytes, octal
size fields of at most 11 digits). -/
theorem C3_long_name_encoding (sha512 : List Nat → List Nat) (hq : Bool)
    (tn content : List Nat) (hb : ∀ b ∈ tn, b ≤ 255)
    (hn8 : tn.length < 8 ^ 11) (hc8 : content.length < 8 ^ 11) :
    (100 < tn.length →
      (tarWriteDir tn).length = 512 + tn.length + (512 - tn.length % 512) % 512 + 512
      ∧ sliceGet (tarWriteDir tn) 0 13 = strBytes "././@LongLink"
      ∧ sliceGet (tarWriteDir tn) 156 1 = [76]
      ∧ sliceGet (tarWriteDir tn) 124 12 = octalFmt 11 tn.length ++ [0]
      ∧ sliceGet (tarWriteDir tn) 512 tn.length = tn
      ∧ sliceGet (tarWriteDir tn) (512 + tn.length) ((512 - tn.length % 512) % 512) =
          List.replicate ((512 - tn.length % 512) % 512) 0
      ∧ (tn.length + (512 - tn.length % 512) % 512) % 512 = 0
      ∧ sliceGet (tarWriteDir tn) (512 + tn.length + (512 - tn.length % 512) % 512) 512 =
          dirRegHeader tn
      ∧ sliceGet (dirRegHeader tn) 0 100 = tn.take 100)
    ∧ (tn.length ≤ 100 →
      tarWriteDir tn = dirRegHeader tn
      ∧ (dirRegHeader tn).length = 512
      ∧ sliceGet (dirRegHeader tn) 156 1 = [53]
      ∧ sliceGet (dirRegHeader tn) 0 100 = tn ++ List.replicate (100 - tn.length) 0)
    ∧ (100 < tn.length → ∀ tar hash,
      tarWriteFile sha512 hq content content.length tn = Except.ok (tar, hash) →
      sliceGet tar 0 13 = strBytes "././@LongLink"
      ∧ sliceGet tar 156 1 = [76]
      ∧ sliceGet tar 124 12 = octalFmt 11 tn.length ++ [0]
      ∧ sliceGet tar 512 tn.length = tn
      ∧ sliceGet tar (512 + tn.length + (512 - tn.length % 512) % 512) 512 =
          fileRegHeader content.length tn
      ∧ sliceGet (fileRegHeader content.length tn) 0 100 = tn.take 100)
    ∧ (tn.length ≤ 100 → ∀ tar hash,
      tarWriteFile sha512 hq content content.length tn = Except.ok (tar, hash) →
      tar = fileRegHeader content.length tn ++ content ++
          List.replicate ((512 - content.length % 512) % 512) 0
      ∧ sliceGet tar 156 1 = [48]
      ∧ sliceGet (fileRegHeader content.length tn) 0 100 =
          tn ++ List.replicate (100 - tn.length) 0) := by
  obtain ⟨hR1, hR2, hR3, hR4, _⟩ := dirRegHeader_facts hb
  obtain ⟨hF1, hF2, hF3, hF4, _⟩ := fileRegHeader_facts hb hc8
  refine ⟨?_, ?_, ?_, ?_⟩
  · intro hgt
    obtain ⟨hA1, hA2, hA3, hA4, hA5, _⟩ := dirLongHeader_facts (n := tn.length) hn8
    have hout : tarWriteDir tn =
        dirLongHeader tn.length ++ (tn ++
          (List.replicate ((512 - tn.length % 512) % 512) 0 ++ dirRegHeader tn)) := by
      rw [tarWriteDir, if_pos hgt]
      simp only [List.append_assoc]
    have htake : 100 - tn.length = 0 := by omega
    refine ⟨?_, ?_, ?_, ?_, ?_, ?_, by omega, ?_, ?_⟩
    · rw [hout]
      simp only [List.length_append, hA1, hR1, List.length_replicate]
      omega
    · rw [hout, sliceGet_append_left (by rw [hA1]; omega)]
      exact hA2
    · rw [hout, sliceGet_append_left (by rw [hA1]; omega)]
      exact hA5
    · rw [hout, sliceGet_append_left (by rw [hA1]; omega)]
      exact hA4
    · rw [hout, sliceGet_append_right (by rw [hA1]), hA1, Nat.sub_self,
        sliceGet_append_left (by omega), sliceGet_all rfl]
    · rw [hout, sliceGet_append_right (by rw [hA1]; omega), hA1,
        Nat.add_sub_cancel_left, sliceGet_append_right (Nat.le_refl _), Nat.sub_self,
        sliceGet_append_left (by simp), sliceGet_all (List.length_replicate _ _)]
    · rw [hout, sliceGet_append_right (by rw [hA1]; omega), hA1]
      rw [show 512 + tn.length + (512 - tn.length % 512) % 512 - 512 =
        tn.length + (512 - tn.length % 512) % 512 from by omega]
      rw [sliceGet_append_right (by omega), Nat.add_sub_cancel_left,
        sliceGet_append_right (by simp), List.length_replicate, Nat.sub_self,
        sliceGet_all hR1]
    · rw [hR2, htake]
      simp
  · intro hle
    have hout : tarWriteDir tn = dirRegHeader tn := by
      rw [tarWriteDir, if_neg (by omega)]
      simp
    refine ⟨hout, hR1, hR4, ?_⟩
    rw [hR2, List.take_of_length_le hle]
  · intro hgt tar hash heq
    obtain ⟨hA1, hA2, hA3, hA4, hA5, _⟩ := fileLongHeader_facts (n := tn.length) hn8
    rw [tarWriteFile_eq] at heq
    simp only [Except.ok.injEq, Prod.mk.injEq] at heq
    obtain ⟨⟨htar, _⟩, _⟩ := And.intro heq True.intro
    have hpadN : (if tn.length % 512 = 0 then 0 else 512 - tn.length % 512) =
        (512 - tn.length % 512) % 512 := by
      by_cases h : tn.length % 512 = 0 <;> simp [h] <;> omega
    have htar2 : tar = fileLongHeader tn.length ++ (tn ++
        (List.replicate ((512 - tn.length % 512) % 512) 0 ++
          (fileRegHeader content.length tn ++ (content ++
            List.replicate ((512 - content.length % 512) % 512) 0)))) := by
      rw [← htar, if_pos hgt, hpadN]
      simp only [List.append_assoc]
    subst htar2
    have htake : 100 - tn.length = 0 := by omega
    refine ⟨?_, ?_, ?_, ?_, ?_, ?_⟩
    · rw [sliceGet_append_left (by rw [hA1]; omega)]
      exact hA2
    · rw [sliceGet_append_left (by rw [hA1]; omega)]
      exact hA5
    · rw [sliceGet_append_left (by rw [hA1]; omega)]
      exact hA4
    · rw [sliceGet_append_right (by rw [hA1]), hA1, Nat.sub_self,
        sliceGet_append_left (by omega), sliceGet_all rfl]
    · rw [sliceGet_append_right (by rw [hA1]; omega), hA1]
      rw [show 512 + tn.length + (512 - tn.length % 512) % 512 - 512 =
        tn.length + (512 - tn.length % 512) % 512 from by omega]
      rw [sliceGet_append_right (by omega), Nat.add_sub_cancel_left,
        sliceGet_append_right (by simp), List.length_replicate, Nat.sub_self,
        sliceGet_append_left (by rw [hF1]), sliceGet_all hF1]
    · rw [hF2, htake]
      simp
  · intro hle tar hash heq
    rw [tarWriteFile_eq] at heq
    simp only [Except.ok.injEq, Prod.mk.injEq] at heq
    obtain ⟨htar, hhash⟩ := heq
    have htar2 : tar = fileRegHeader content.length tn ++ content ++
        List.replicate ((512 - content.length % 512) % 512) 0 := by
      rw [← htar, if_neg (by omega)]
      simp
    refine ⟨htar2, ?_, ?_⟩
    · rw [htar2, List.append_assoc, sliceGet_append_left (by rw [hF1]; omega)]
      exact hF4
    · rw [hF2, List.take_of_length_le hle]

theorem C3_long_name_encoding_witness :
    (∀ b ∈ List.replicate 101 (97 : Nat), b ≤ 255)
    ∧ 100 < (List.replicate 101 (97 : Nat)).length
    ∧ sliceGet (tarWriteDir (List.replicate 101 97)) 0 13 = strBytes "././@LongLink"
    ∧ sliceGet (tarWriteDir (List.replicate 101 97)) 156 1 = [76] := by
  have hb : ∀ b ∈ List.replicate 101 (97 : Nat), b ≤ 255 := by decide
  have h := (C3_long_name_encoding (fun l => l) true (List.replicate 101 97) [7]
    hb (by decide) (by decide)).1 (by decide)
  exact ⟨hb, by decide, h.2.1, h.2.2.1⟩

/-- C6 shows a code bug: when the walker pops a symlink that resolves to a
directory it emits the member and pushes nothing, so the symlinked
directory's subtree is never traversed (src/main.rs lines 128-134 return
without listing children), contradicting both the claim and the
program's own option documentation ("replace all symlinks with the actual
content of the files/dirs behind the symlinks").  First conjunct: a
symlink to a directory containing a file yields no entry for that file.
Second conjunct: the same tree with a plain directory in place of the
symlink does visit the file. -/
theorem C6_symlink_dir_subtree_skipped :
    walkAll ⟨fun _ => false, false, false⟩ idReadDir
        [(["r"], FSNode.dir 0 0
          [("link", FSNode.symlinkDir 0 77 [("f", FSNode.file 0 [65])])])] =
      Except.ok
        [⟨["r"], FSNode.dir 0 0
            [("link", FSNode.symlinkDir 0 77 [("f", FSNode.file 0 [65])])],
          .Directory, none⟩,
         ⟨["r", "link"], FSNode.symlinkDir 0 77 [("f", FSNode.file 0 [65])],
          .SymlinkToDirectory [("f", FSNode.file 0 [65])], some 77⟩]
    ∧ walkAll ⟨fun _ => false, false, false⟩ idReadDir
        [(["r"], FSNode.dir 0 0
          [("link", FSNode.dir 0 77 [("f", FSNode.file 0 [65])])])] =
      Except.ok
        [⟨["r"], FSNode.dir 0 0
            [("link", FSNode.dir 0 77 [("f", FSNode.file 0 [65])])],
          .Directory, none⟩,
         ⟨["r", "link"], FSNode.dir 0 77 [("f", FSNode.file 0 [65])],
          .Directory, none⟩,
         ⟨["r", "link", "f"], FSNode.file 0 [65], .File, some 1⟩] := by
  constructor <;>
    simp [walkAll, idReadDir, isAllowedName, entryGe, List.insertionSort,
      List.orderedInsert]

/-- C8: with empty-directory pruning on, a directory whose filtered child
list is empty is skipped entirely (the walker just continues with the
rest of the stack), and the check is shallow: a directory whose single
surviving child is a directory that will itself prune to empty is still
emitted (only the child is dropped). -/
theorem C8_empty_dir_pruning (o : WalkOpts) (readDir : ReadDirFn) (rp : List String)
    (m s : Nat) (cs : List (String × FSNode)) (rest : List StackEntry)
    (hprune : o.emptyDirsIgnored = true) :
    (cs.filter (fun c => isAllowedName o c.1) = [] →
      walkAll o readDir ((rp, FSNode.dir m s cs) :: rest) = walkAll o readDir rest)
    ∧ ∀ b mb sb csb,
      cs.filter (fun c => isAllowedName o c.1) = [(b, FSNode.dir mb sb csb)] →
      csb.filter (fun c => isAllowedName o c.1) = [] →
      walkAll o readDir ((rp, FSNode.dir m s cs) :: rest) =
        Except.map (fun items => ⟨rp, FSNode.dir m s cs, .Directory, none⟩ :: items)
          (walkAll o readDir rest) := by
  constructor
  · intro hf
    have hval : (readDir rp cs).val.filter (fun c => isAllowedName o c.1) = [] := by
      have hp := ((readDir rp cs).property).filter (fun c => isAllowedName o c.1)
      rw [hf] at hp
      exact hp.eq_nil
    rw [walkAll]
    simp only [hval, List.isEmpty_nil, hprune, Bool.and_self, if_true]
  · intro b mb sb csb hf hcf
    have hval : (readDir rp cs).val.filter (fun c => isAllowedName o c.1) =
        [(b, FSNode.dir mb sb csb)] := by
      have hp := ((readDir rp cs).property).filter (fun c => isAllowedName o c.1)
      rw [hf] at hp
      exact List.perm_singleton.mp hp
    have hval2 : (readDir (rp ++ [b]) csb).val.filter (fun c => isAllowedName o c.1) = [] := by
      have hp := ((readDir (rp ++ [b]) csb).property).filter (fun c => isAllowedName o c.1)
      rw [hcf] at hp
      exact hp.eq_nil
    rw [walkAll]
    simp only [hval, List.isEmpty_cons, Bool.false_and, if_false,
      List.map_cons, List.map_nil, List.insertionSort, List.orderedInsert,
      List.reverse_cons, List.reverse_nil, List.nil_append, List.cons_append]
    rw [walkAll]
    simp only [hval2, List.isEmpty_nil, hprune, Bool.and_self, if_true]
    cases walkAll o readDir rest <;> rfl

theorem C8_empty_dir_pruning_witness :
    ((fun n => n == "x") "x" = true)
    ∧ walkAll ⟨fun n => n == "x", true, false⟩ idReadDir
        [(["r"], FSNode.dir 0 0 [("x", FSNode.file 0 [1])])] = Except.ok []
    ∧ walkAll ⟨fun n => n == "x", true, false⟩ idReadDir
        [(["r"], FSNode.dir 0 0 [("d", FSNode.dir 0 0 [("x", FSNode.file 0 [1])])])] =
      Except.ok [⟨["r"], FSNode.dir 0 0 [("d", FSNode.dir 0 0 [("x", FSNode.file 0 [1])])],
        .Directory, none⟩] := by
  have h := C8_empty_dir_pruning ⟨fun n => n == "x", true, false⟩ idReadDir ["r"]
    0 0 [("d", FSNode.dir 0 0 [("x", FSNode.file 0 [1])])] [] rfl
  have h1 := C8_empty_dir_pruning ⟨fun n => n == "x", true, false⟩ idReadDir ["r"]
    0 0 [("x", FSNode.file 0 [1])] [] rfl
  refine ⟨by decide, ?_, ?_⟩
  · rw [h1.1 (by simp [isAllowedName])]
    simp [walkAll]
  · rw [h.2 "d" 0 0 [("x", FSNode.file 0 [1])] (by simp [isAllowedName])
      (by simp [isAllowedName])]
    simp [walkAll, Except.map]

/-- The digest line the main loop emits for a file-kind item
(none for directory kinds). -/
def digestLineOf (sha512 : List Nat → List Nat) (mainDir : String) (d : DirWalkItem) :
    Option (List Nat) :=
  match d.typ with
  | .Directory => none
  | .SymlinkToDirectory _ => none
  | .File =>
    some (hexEncode (sha512 (nodeContent d.node)) ++ strBytes "  " ++
      itemTarname mainDir d ++ [10])
  | .SymlinkToFile c =>
    some (hexEncode (sha512 c) ++ strBytes "  " ++ itemTarname mainDir d ++ [10])

theorem tarWriteFile_hash {sha512 : List Nat → List Nat} {hq : Bool} {s : Nat}
    {content tn : List Nat} {w : List Nat × List Nat}
    (h : tarWriteFile sha512 hq content s tn = Except.ok w) :
    w.2 = if hq then hexEncode (sha512 content) ++ strBytes "  " ++ tn ++ [10] else [] := by
  rw [tarWriteFile, readLoop_spec] at h
  by_cases hc : content.length = s
  · rw [if_neg (by simp [hc])] at h
    simp only [Except.ok.injEq] at h
    cases hq <;> rw [← h] <;> simp
  · rw [if_pos (by simp [hc])] at h
    exact absurd h (by simp)

theorem encodeItems_hash (sha512 : List Nat → List Nat) (mainDir : String) (hq : Bool) :
    ∀ items tar hash,
      encodeItems sha512 mainDir hq items = Except.ok (tar, hash) →
      hash = if hq then (items.filterMap (digestLineOf sha512 mainDir)).flatten else [] := by
  intro items
  induction items with
  | nil =>
    intro tar hash heq
    simp only [encodeItems, Except.ok.injEq, Prod.mk.injEq] at heq
    cases hq <;> simp [← heq.2]
  | cons d rest ih =>
    intro tar hash heq
    rw [encodeItems] at heq
    cases htyp : d.typ with
    | Directory =>
      cases hrest : encodeItems sha512 mainDir hq rest with
      | error e => simp [htyp, hrest] at heq
      | ok r =>
        simp only [htyp, hrest, Except.ok.injEq, Prod.mk.injEq] at heq
        have := ih r.1 r.2 (by rw [hrest])
        rw [← heq.2, this]
        cases hq
        · simp
        · simp [List.filterMap_cons, digestLineOf, htyp]
    | SymlinkToDirectory resolved =>
      cases hrest : encodeItems sha512 mainDir hq rest with
      | error e => simp [htyp, hrest] at heq
      | ok r =>
        simp only [htyp, hrest, Except.ok.injEq, Prod.mk.injEq] at heq
        have := ih r.1 r.2 (by rw [hrest])
        rw [← heq.2, this]
        cases hq
        · simp
        · simp [List.filterMap_cons, digestLineOf, htyp]
    | File =>
      cases hsz : d.size with
      | none => simp [htyp, hsz] at heq
      | some s =>
        cases hw : tarWriteFile sha512 hq (nodeContent d.node) s (itemTarname mainDir d) with
        | error e => simp [htyp, hsz, hw] at heq
        | ok w =>
          cases hrest : encodeItems sha512 mainDir hq rest with
          | error e => simp [htyp, hsz, hw, hrest] at heq
          | ok r =>
            simp only [htyp, hsz, hw, hrest, Except.ok.injEq, Prod.mk.injEq] at heq
            have hih := ih r.1 r.2 (by rw [hrest])
            have hwh := tarWriteFile_hash hw
            rw [← heq.2, hwh, hih]
            cases hq
            · simp
            · simp [List.filterMap_cons, digestLineOf, htyp]
    | SymlinkToFile c =>
      cases hsz : d.size with
      | none => simp [htyp, hsz] at heq
      | some s =>
        cases hw : tarWriteFile sha512 hq c s (itemTarname mainDir d) with
        | error e => simp [htyp, hsz, hw] at heq
        | ok w =>
          cases hrest : encodeItems sha512 mainDir hq rest with
          | error e => simp [htyp, hsz, hw, hrest] at heq
          | ok r =>
            simp only [htyp, hsz, hw, hrest, Except.ok.injEq, Prod.mk.injEq] at heq
            have hih := ih r.1 r.2 (by rw [hrest])
            have hwh := tarWriteFile_hash hw
            rw [← heq.2, hwh, hih]
            cases hq
            · simp
            · simp [List.filterMap_cons, digestLineOf, htyp]

/-- C9: when the digest sink is requested, the digest stream consists of
exactly one line per file member (never for directory members), in the
order the files are written, each line being lowercase hex digest, two
spaces, the archive-internal name and a newline; the digest covers
exactly the bytes streamed into the archive for that member (the read
loop writes and hashes the same byte sequence); with no digest sink
requested nothing is emitted. -/
theorem C9_digest_side_channel (sha512 : List Nat → List Nat) (mainDir : String) :
    (∀ items tar hash,
      encodeItems sha512 mainDir true items = Except.ok (tar, hash) →
      hash = (items.filterMap (digestLineOf sha512 mainDir)).flatten)
    ∧ (∀ items tar hash,
      encodeItems sha512 mainDir false items = Except.ok (tar, hash) → hash = [])
    ∧ (∀ content : List Nat,
      (readLoop true content).1 = content ∧ (readLoop true content).2.1 = content)
    ∧ (∀ l : List Nat, (∀ x ∈ l, x ≤ 255) →
      ∀ b ∈ hexEncode l, b ∈ strBytes "0123456789abcdef") := by
  refine ⟨?_, ?_, ?_, ?_⟩
  · intro items tar hash heq
    have := encodeItems_hash sha512 mainDir true items tar hash heq
    simpa using this
  · intro items tar hash heq
    have := encodeItems_hash sha512 mainDir false items tar hash heq
    simpa using this
  · intro content
    rw [readLoop_spec]
    exact ⟨rfl, rfl⟩
  · intro l hl b hb
    simp only [hexEncode, List.mem_flatMap, List.mem_cons, List.not_mem_nil, or_false] at hb
    obtain ⟨x, hx, hb⟩ := hb
    have hx255 := hl x hx
    have h16 : x / 16 ≤ 15 ∧ x % 16 ≤ 15 := by omega
    rcases hb with hb | hb <;> subst hb
    · have : x / 16 ≤ 15 := h16.1
      interval_cases h : (x / 16) <;> decide
    · have : x % 16 ≤ 15 := h16.2
      interval_cases h : (x % 16) <;> decide

theorem C9_digest_side_channel_witness :
    (∀ x ∈ ([255] : List Nat), x ≤ 255)
    ∧ (∀ b ∈ hexEncode [255], b ∈ strBytes "0123456789abcdef")
    ∧ (readLoop true [1, 2, 3]).2.1 = [1, 2, 3] := by
  have h := C9_digest_side_channel (fun l => l) "m"
  exact ⟨by decide, h.2.2.2 [255] (by decide), (h.2.2.1 [1, 2, 3]).2⟩

/-! ### Order theory for the walker's sort -/

theorem pathLe_refl (a : List String) : pathLe a a = true := by
  induction a with
  | nil => rfl
  | cons x xs ih => simp [pathLe, lt_irrefl, ih]

theorem pathLe_total : ∀ a b : List String, pathLe a b = true ∨ pathLe b a = true := by
  intro a
  induction a with
  | nil => intro b; left; rfl
  | cons x xs ih =>
    intro b
    cases b with
    | nil => right; rfl
    | cons y ys =>
      rcases lt_trichotomy x y with h | h | h
      · left; simp [pathLe, h]
      · subst h
        rcases ih ys with h2 | h2
        · left; simp [pathLe, lt_irrefl, h2]
        · right; simp [pathLe, lt_irrefl, h2]
      · right; simp [pathLe, h]

theorem pathLe_antisymm : ∀ a b : List String,
    pathLe a b = true → pathLe b a = true → a = b := by
  intro a
  induction a with
  | nil =>
    intro b hab hba
    cases b with
    | nil => rfl
    | cons y ys => simp [pathLe] at hba
  | cons x xs ih =>
    intro b hab hba
    cases b with
    | nil => simp [pathLe] at hab
    | cons y ys =>
      rcases lt_trichotomy x y with h | h | h
      · simp [pathLe, h, asymm h] at hba
      · subst h
        simp only [pathLe, lt_irrefl, if_false] at hab hba
        rw [ih ys hab hba]
      · simp [pathLe, h, asymm h] at hab

theorem pathLe_trans : ∀ a b c : List String,
    pathLe a b = true → pathLe b c = true → pathLe a c = true := by
  intro a
  induction a with
  | nil => intro b c _ _; rfl
  | cons x xs ih =>
    intro b c hab hbc
    cases b with
    | nil => simp [pathLe] at hab
    | cons y ys =>
      cases c with
      | nil => simp [pathLe] at hbc
      | cons z zs =>
        rcases lt_trichotomy x y with h1 | h1 | h1
        · rcases lt_trichotomy y z with h3 | h3 | h3
          · simp [pathLe, lt_trans h1 h3]
          · subst h3; simp [pathLe, h1]
          · simp [pathLe, h3, asymm h3] at hbc
        · subst h1
          rcases lt_trichotomy x z with h3 | h3 | h3
          · simp [pathLe, h3]
          · subst h3
            simp only [pathLe, lt_irrefl, if_false] at hab hbc ⊢
            exact ih _ _ hab hbc
          · simp [pathLe, h3, asymm h3] at hbc
        · simp [pathLe, h1, asymm h1] at hab

instance : IsTotal StackEntry entryLe :=
  ⟨fun a b => pathLe_total a.1 b.1⟩

instance : IsTrans StackEntry entryLe :=
  ⟨fun a b c hab hbc => pathLe_trans a.1 b.1 c.1 hab hbc⟩

instance : IsTotal StackEntry entryGe :=
  ⟨fun a b => pathLe_total b.1 a.1⟩

instance : IsTrans StackEntry entryGe :=
  ⟨fun a b c hab hbc => pathLe_trans c.1 b.1 a.1 hbc hab⟩

/-- Strict ascending comparison of stack entries: non-strict plus
distinct paths. -/
def entryLt (a b : StackEntry) : Prop := entryLe a b ∧ a.1 ≠ b.1

instance : IsAntisymm StackEntry entryLt :=
  ⟨fun a b h1 h2 => absurd (pathLe_antisymm a.1 b.1 h1.1 h2.1) h1.2⟩

theorem nodupNames_nodup {cs : List (String × FSNode)} (h : nodupNames cs = true) :
    (cs.map Prod.fst).Nodup := by
  induction cs with
  | nil => simp
  | cons c cs ih =>
    simp only [nodupNames, Bool.and_eq_true, List.all_eq_true] at h
    simp only [List.map_cons, List.nodup_cons, List.mem_map]
    refine ⟨?_, ih h.2⟩
    rintro ⟨d, hd, he⟩
    have := h.1 d hd
    simp only [bne_iff_ne, ne_eq] at this
    exact this he

theorem childrenWF_mem {cs : List (String × FSNode)} (h : childrenWF cs = true) :
    ∀ c ∈ cs, nodeWF c.2 = true := by
  induction cs with
  | nil => intro c hc; simp at hc
  | cons c cs ih =>
    intro d hd
    simp only [childrenWF, Bool.and_eq_true] at h
    rcases List.mem_cons.mp hd with h2 | h2
    · subst h2; exact h.1
    · exact ih h.2 d h2

/-- Two sorted lists of stack entries that are permutations of each other
and have pairwise-distinct paths are equal. -/
theorem sorted_perm_nodup_eq {l1 l2 : List StackEntry}
    (hp : l1.Perm l2) (hs1 : l1.Sorted entryLe) (hs2 : l2.Sorted entryLe)
    (hn : (l1.map Prod.fst).Nodup) : l1 = l2 := by
  have hn2 : (l2.map Prod.fst).Nodup := ((hp.map Prod.fst).nodup_iff).mp hn
  have hpair1 : l1.Pairwise (fun a b : StackEntry => a.1 ≠ b.1) :=
    List.pairwise_map.mp hn
  have hpair2 : l2.Pairwise (fun a b : StackEntry => a.1 ≠ b.1) :=
    List.pairwise_map.mp hn2
  have hs1lt : l1.Sorted entryLt := hs1.and hpair1
  have hs2lt : l2.Sorted entryLt := hs2.and hpair2
  exact List.eq_of_perm_of_sorted hp hs1lt hs2lt

theorem reverse_sortGe_eq_sortLe {l : List StackEntry} (hn : (l.map Prod.fst).Nodup) :
    (List.insertionSort entryGe l).reverse = List.insertionSort entryLe l := by
  refine sorted_perm_nodup_eq ?_ ?_ ?_ ?_
  · exact (List.reverse_perm _).trans
      ((List.perm_insertionSort _ _).trans (List.perm_insertionSort entryLe l).symm)
  · exact List.pairwise_reverse.mpr (List.sorted_insertionSort entryGe l)
  · exact List.sorted_insertionSort entryLe l
  · have hperm : ((List.insertionSort entryGe l).reverse.map Prod.fst).Perm
        (l.map Prod.fst) :=
      ((List.reverse_perm _).trans (List.perm_insertionSort _ _)).map Prod.fst
    exact hperm.nodup_iff.mpr hn

theorem specWalkList_append (o : WalkOpts) (a b : List StackEntry) :
    specWalkList o (a ++ b) =
      match specWalkList o a, specWalkList o b with
      | Except.error e, _ => Except.error e
      | Except.ok _, Except.error e => Except.error e
      | Except.ok x, Except.ok y => Except.ok (x ++ y) := by
  induction a with
  | nil =>
    simp only [List.nil_append, specWalkList]
    cases specWalkList o b with
    | error e => rfl
    | ok y => simp
  | cons e rest ih =>
    rw [List.cons_append]
    simp only [specWalkList]
    cases hw : specWalk o e.1 e.2 with
    | error er => rfl
    | ok items =>
      rw [ih]
      cases specWalkList o rest with
      | error er => rfl
      | ok x =>
        cases specWalkList o b with
        | error er => rfl
        | ok y => simp

/-- The iterative stack walker coincides with the recursive reference
traversal: emit the node, then each surviving child subtree in ascending
path order (proved for any fuel bound covering the stack). -/
theorem walkAll_eq_specWalkList (o : WalkOpts) (readDir : ReadDirFn) :
    ∀ N stack, stackSize stack ≤ N → (∀ e ∈ stack, nodeWF e.2 = true) →
      walkAll o readDir stack = specWalkList o stack := by
  intro N
  induction N with
  | zero =>
    intro stack hsize _
    cases stack with
    | nil => simp [walkAll, specWalkList]
    | cons e rest =>
      exfalso
      have := nodeSize_pos e.2
      simp only [stackSize] at hsize
      omega
  | succ N ih =>
    intro stack hsize hwf
    cases stack with
    | nil => simp [walkAll, specWalkList]
    | cons top rest =>
      obtain ⟨rp, n⟩ := top
      have hrest_wf : ∀ e ∈ rest, nodeWF e.2 = true :=
        fun e he => hwf e (List.mem_cons_of_mem _ he)
      cases n with
      | file m c =>
        have hr : stackSize rest ≤ N := by
          simp only [stackSize, nodeSize] at hsize
          omega
        simp only [walkAll, specWalkList, specWalk]
        rw [ih rest hr hrest_wf]
        cases specWalkList o rest with
        | error e => rfl
        | ok items => simp
      | symlinkFile m c =>
        have hr : stackSize rest ≤ N := by
          simp only [stackSize, nodeSize] at hsize
          omega
        simp only [walkAll, specWalkList, specWalk]
        by_cases habort : o.symlinksShouldAbort
        · simp only [habort, if_true]
        · simp only [habort, if_false, Bool.false_eq_true]
          rw [ih rest hr hrest_wf]
          cases specWalkList o rest with
          | error e => rfl
          | ok items => simp
      | symlinkDir m s cs =>
        have hr : stackSize rest ≤ N := by
          simp only [stackSize] at hsize
          have := nodeSize_pos (FSNode.symlinkDir m s cs)
          omega
        simp only [walkAll, specWalkList, specWalk]
        by_cases habort : o.symlinksShouldAbort
        · simp only [habort, if_true]
        · simp only [habort, if_false, Bool.false_eq_true]
          rw [ih rest hr hrest_wf]
          cases specWalkList o rest with
          | error e => rfl
          | ok items => simp
      | dir m s cs =>
        have hwtop := hwf (rp, FSNode.dir m s cs) (List.mem_cons_self _ _)
        simp only [nodeWF, Bool.and_eq_true] at hwtop
        obtain ⟨hnn, hcwf⟩ := hwtop
        have hperm : ((readDir rp cs).val.filter (fun c => isAllowedName o c.1)).Perm
            (cs.filter (fun c => isAllowedName o c.1)) :=
          ((readDir rp cs).property).filter _
        have hempeq : ((readDir rp cs).val.filter (fun c => isAllowedName o c.1)).isEmpty =
            (cs.filter (fun c => isAllowedName o c.1)).isEmpty := by
          rw [Bool.eq_iff_iff, List.isEmpty_iff, List.isEmpty_iff]
          constructor
          · intro h
            exact List.perm_nil.mp ((h ▸ hperm).symm)
          · intro h
            exact List.perm_nil.mp (h ▸ hperm)
        have hpush : (List.insertionSort entryGe
              (((readDir rp cs).val.filter (fun c => isAllowedName o c.1)).map
                (fun c => (rp ++ [c.1], c.2)))).reverse =
            List.insertionSort entryLe
              ((cs.filter (fun c => isAllowedName o c.1)).map
                (fun c => (rp ++ [c.1], c.2))) := by
          have hkeyperm : ((List.insertionSort entryGe
                (((readDir rp cs).val.filter (fun c => isAllowedName o c.1)).map
                  (fun c => (rp ++ [c.1], c.2)))).reverse.map Prod.fst).Perm
              (((cs.filter (fun c => isAllowedName o c.1)).map
                (fun c => (rp ++ [c.1], c.2))).map Prod.fst) :=
            (((List.reverse_perm _).trans (List.perm_insertionSort _ _)).trans
              (hperm.map _)).map Prod.fst
          have hkeys : (((cs.filter (fun c => isAllowedName o c.1)).map
              (fun c => (rp ++ [c.1], c.2))).map Prod.fst).Nodup := by
            rw [List.map_map]
            have hfn : (cs.filter (fun c => isAllowedName o c.1)).map Prod.fst |>.Nodup :=
              (nodupNames_nodup hnn).sublist
                ((List.filter_sublist _).map Prod.fst)
            have : (Prod.fst ∘ fun c : String × FSNode => (rp ++ [c.1], c.2)) =
                (fun n => rp ++ [n]) ∘ Prod.fst := rfl
            rw [this, ← List.map_map]
            refine hfn.map ?_
            intro a b hab
            have := List.append_cancel_left hab
            simpa using this
          refine sorted_perm_nodup_eq ?_ ?_ ?_ ?_
          · exact ((List.reverse_perm _).trans (List.perm_insertionSort _ _)).trans
              ((hperm.map _).trans (List.perm_insertionSort entryLe _).symm)
          · exact List.pairwise_reverse.mpr (List.sorted_insertionSort entryGe _)
          · exact List.sorted_insertionSort entryLe _
          · exact hkeyperm.nodup_iff.mpr hkeys
        simp only [walkAll, specWalkList, specWalk, hempeq, hpush]
        by_cases hcond : ((cs.filter (fun c => isAllowedName o c.1)).isEmpty
            && o.emptyDirsIgnored) = true
        · simp only [hcond, if_true]
          rw [ih rest (by
            simp only [stackSize] at hsize
            have := nodeSize_pos (FSNode.dir m s cs)
            omega) hrest_wf]
          cases specWalkList o rest with
          | error e => rfl
          | ok items => simp
        · simp only [hcond, if_false, Bool.false_eq_true]
          have hsize2 : stackSize (List.insertionSort entryLe
              ((cs.filter (fun c => isAllowedName o c.1)).map
                (fun c => (rp ++ [c.1], c.2))) ++ rest) ≤ N := by
            rw [stackSize_append,
              stackSize_perm (List.perm_insertionSort entryLe _),
              stackSize_entries]
            have h1 := childListSize_filter_le (fun c => isAllowedName o c.1) cs
            simp only [stackSize, nodeSize] at hsize
            omega
          have hwf2 : ∀ e ∈ List.insertionSort entryLe
              ((cs.filter (fun c => isAllowedName o c.1)).map
                (fun c => (rp ++ [c.1], c.2))) ++ rest, nodeWF e.2 = true := by
            intro e he
            rcases List.mem_append.mp he with he | he
            · have := (List.perm_insertionSort entryLe _).subset he
              obtain ⟨c, hc, hce⟩ := List.mem_map.mp this
              have hcs := List.mem_of_mem_filter hc
              rw [← hce]
              exact childrenWF_mem hcwf c hcs
            · exact hrest_wf e he
          rw [ih _ hsize2 hwf2, specWalkList_append]
          cases specWalkList o (List.insertionSort entryLe
              ((cs.filter (fun c => isAllowedName o c.1)).map
                (fun c => (rp ++ [c.1], c.2)))) with
          | error e => rfl
          | ok x =>
            cases specWalkList o rest with
            | error e => rfl
            | ok y => simp

/-- C2: on a well-formed tree (distinct basenames within each directory)
the walker's output equals the recursive pre-order depth-first reference
traversal `specWalk`, which visits the surviving children of every
directory in ascending path order, each child's entire subtree before the
next sibling — independent of the order `read_dir` lists entries.  The
second conjunct makes the ordering strict: the sorted child batch is
pairwise strictly ascending whenever the keys are distinct. -/
theorem C2_walker_ordering (o : WalkOpts) (readDir : ReadDirFn)
    (inputName : String) (root : FSNode) (hwf : nodeWF root = true) :
    walkAll o readDir [([inputName], root)] = specWalk o [inputName] root
    ∧ ∀ l : List StackEntry, (l.map Prod.fst).Nodup →
        List.Pairwise entryLt (List.insertionSort entryLe l) := by
  constructor
  · have h := walkAll_eq_specWalkList o readDir (stackSize [([inputName], root)])
      [([inputName], root)] (Nat.le_refl _)
      (by
        intro e he
        rw [List.mem_singleton] at he
        subst he
        exact hwf)
    rw [h]
    simp only [specWalkList]
    cases specWalk o [inputName] root with
    | error e => rfl
    | ok items => simp
  · intro l hn
    have hs := List.sorted_insertionSort entryLe l
    have hnl : ((List.insertionSort entryLe l).map Prod.fst).Nodup :=
      ((List.perm_insertionSort entryLe l).map Prod.fst).nodup_iff.mpr hn
    exact hs.and (List.pairwise_map.mp hnl)

theorem C2_walker_ordering_witness :
    nodeWF (FSNode.dir 7 9 [("b", FSNode.file 1 [66]), ("a", FSNode.file 2 [65])]) = true
    ∧ walkAll ⟨fun _ => false, false, false⟩ idReadDir
        [(["r"], FSNode.dir 7 9 [("b", FSNode.file 1 [66]), ("a", FSNode.file 2 [65])])] =
      specWalk ⟨fun _ => false, false, false⟩ ["r"]
        (FSNode.dir 7 9 [("b", FSNode.file 1 [66]), ("a", FSNode.file 2 [65])]) := by
  have hwf : nodeWF (FSNode.dir 7 9 [("b", FSNode.file 1 [66]), ("a", FSNode.file 2 [65])]) =
      true := by
    simp [nodeWF, nodupNames, childrenWF]
  exact ⟨hwf, (C2_walker_ordering ⟨fun _ => false, false, false⟩ idReadDir "r"
    (FSNode.dir 7 9 [("b", FSNode.file 1 [66]), ("a", FSNode.file 2 [65])]) hwf).1⟩

/-! ### Determinism: the pipeline depends only on the metadata-erased tree
and not on the directory listing order -/

/-- Two stack entries agree on everything the program can observe:
same path, same tree up to timestamps and directory stat sizes. -/
def EntryMatch (e1 e2 : StackEntry) : Prop :=
  e1.1 = e2.1 ∧ eraseMeta e1.2 = eraseMeta e2.2

/-- Two walk items agree on everything the encoder reads: same relative
path, same kind, same file content and size for file kinds (directory
kinds may differ in stat size, which the encoder ignores). -/
def ItemMatch (d1 d2 : DirWalkItem) : Prop :=
  d1.relpath = d2.relpath ∧
  match d1.typ, d2.typ with
  | .Directory, .Directory => True
  | .SymlinkToDirectory r1, .SymlinkToDirectory r2 => eraseChildren r1 = eraseChildren r2
  | .File, .File => nodeContent d1.node = nodeContent d2.node ∧ d1.size = d2.size
  | .SymlinkToFile c1, .SymlinkToFile c2 => c1 = c2 ∧ d1.size = d2.size
  | _, _ => False

/-- Relate two fallible results: equal errors, or values related by `R`. -/
def ExceptRel (R : α → β → Prop) : Except String α → Except String β → Prop
  | .error e1, .error e2 => e1 = e2
  | .ok a, .ok b => R a b
  | _, _ => False

theorem eraseChildren_forall₂ :
    ∀ {cs1 cs2 : List (String × FSNode)}, eraseChildren cs1 = eraseChildren cs2 →
      List.Forall₂ (fun c1 c2 : String × FSNode =>
        c1.1 = c2.1 ∧ eraseMeta c1.2 = eraseMeta c2.2) cs1 cs2 := by
  intro cs1
  induction cs1 with
  | nil =>
    intro cs2 h
    cases cs2 with
    | nil => exact List.Forall₂.nil
    | cons c cs => simp [eraseChildren] at h
  | cons c cs ih =>
    intro cs2 h
    cases cs2 with
    | nil => simp [eraseChildren] at h
    | cons d ds =>
      simp only [eraseChildren, List.cons.injEq, Prod.mk.injEq] at h
      exact List.Forall₂.cons ⟨h.1.1, h.1.2⟩ (ih h.2)

theorem forall₂_filter_allowed (o : WalkOpts) :
    ∀ {cs1 cs2 : List (String × FSNode)},
      List.Forall₂ (fun c1 c2 : String × FSNode =>
        c1.1 = c2.1 ∧ eraseMeta c1.2 = eraseMeta c2.2) cs1 cs2 →
      List.Forall₂ (fun c1 c2 : String × FSNode =>
        c1.1 = c2.1 ∧ eraseMeta c1.2 = eraseMeta c2.2)
        (cs1.filter (fun c => isAllowedName o c.1))
        (cs2.filter (fun c => isAllowedName o c.1)) := by
  intro cs1 cs2 h
  induction h with
  | nil => exact List.Forall₂.nil
  | cons hc hrest ih =>
    rename_i c1 c2 l1 l2
    rw [List.filter_cons, List.filter_cons, hc.1]
    by_cases hp : isAllowedName o c2.1
    · simp only [hp, if_true]
      exact List.Forall₂.cons hc ih
    · simp only [hp, if_false, Bool.false_eq_true]
      exact ih

theorem forall₂_map_entries (rp : List String) :
    ∀ {cs1 cs2 : List (String × FSNode)},
      List.Forall₂ (fun c1 c2 : String × FSNode =>
        c1.1 = c2.1 ∧ eraseMeta c1.2 = eraseMeta c2.2) cs1 cs2 →
      List.Forall₂ EntryMatch
        (cs1.map (fun c => (rp ++ [c.1], c.2)))
        (cs2.map (fun c => (rp ++ [c.1], c.2))) := by
  intro cs1 cs2 h
  induction h with
  | nil => exact List.Forall₂.nil
  | cons hc hrest ih =>
    exact List.Forall₂.cons ⟨by simp only []; rw [hc.1], hc.2⟩ ih

theorem forall₂_orderedInsert {a1 a2 : StackEntry} {l1 l2 : List StackEntry}
    (ha : EntryMatch a1 a2) (h : List.Forall₂ EntryMatch l1 l2) :
    List.Forall₂ EntryMatch (List.orderedInsert entryLe a1 l1)
      (List.orderedInsert entryLe a2 l2) := by
  induction h with
  | nil => exact List.Forall₂.cons ha List.Forall₂.nil
  | cons hc hrest ih =>
    rename_i b1 b2 t1 t2
    simp only [List.orderedInsert]
    have hcond : entryLe a1 b1 ↔ entryLe a2 b2 := by
      rw [entryLe, entryLe, ha.1, hc.1]
    by_cases hle : entryLe a1 b1
    · rw [if_pos hle, if_pos (hcond.mp hle)]
      exact List.Forall₂.cons ha (List.Forall₂.cons hc hrest)
    · rw [if_neg hle, if_neg (fun hx => hle (hcond.mpr hx))]
      exact List.Forall₂.cons hc ih

theorem forall₂_insertionSort {l1 l2 : List StackEntry}
    (h : List.Forall₂ EntryMatch l1 l2) :
    List.Forall₂ EntryMatch (List.insertionSort entryLe l1)
      (List.insertionSort entryLe l2) := by
  induction h with
  | nil => exact List.Forall₂.nil
  | cons hc hrest ih =>
    exact forall₂_orderedInsert hc ih

theorem isEmpty_congr {α β : Type} {l1 : List α} {l2 : List β}
    (h : l1.length = l2.length) : l1.isEmpty = l2.isEmpty := by
  cases l1 <;> cases l2 <;> simp_all

/-- The reference traversal depends only on the metadata-erased tree:
related inputs give equal errors or item lists matching pointwise. -/
theorem specWalk_erase (o : WalkOpts) :
    ∀ N : Nat,
      (∀ rp t1 t2, nodeSize t1 ≤ N → eraseMeta t1 = eraseMeta t2 →
        ExceptRel (List.Forall₂ ItemMatch) (specWalk o rp t1) (specWalk o rp t2))
      ∧ (∀ l1 l2, stackSize l1 ≤ N → List.Forall₂ EntryMatch l1 l2 →
        ExceptRel (List.Forall₂ ItemMatch) (specWalkList o l1) (specWalkList o l2)) := by
  intro N
  induction N with
  | zero =>
    constructor
    · intro rp t1 t2 hsz _
      exact absurd hsz (by have := nodeSize_pos t1; omega)
    · intro l1 l2 hsz hm
      cases hm with
      | nil =>
        simp only [specWalkList]
        exact List.Forall₂.nil
      | cons hc hrest =>
        rename_i e1 e2 s1 s2
        exfalso
        have := nodeSize_pos e1.2
        simp only [stackSize] at hsz
        omega
  | succ N ih =>
    have hnode : ∀ rp t1 t2, nodeSize t1 ≤ N + 1 → eraseMeta t1 = eraseMeta t2 →
        ExceptRel (List.Forall₂ ItemMatch) (specWalk o rp t1) (specWalk o rp t2) := by
      intro rp t1 t2 hsz he
      cases t1 with
      | file m1 c1 =>
        cases t2 with
        | file m2 c2 =>
          have hc : c1 = c2 := by simpa [eraseMeta] using he
          subst hc
          simp only [specWalk]
          exact List.Forall₂.cons ⟨rfl, ⟨rfl, rfl⟩⟩ List.Forall₂.nil
        | symlinkFile m2 c2 => simp [eraseMeta] at he
        | dir m2 s2 cs2 => simp [eraseMeta] at he
        | symlinkDir m2 s2 cs2 => simp [eraseMeta] at he
      | symlinkFile m1 c1 =>
        cases t2 with
        | file m2 c2 => simp [eraseMeta] at he
        | symlinkFile m2 c2 =>
          have hc : c1 = c2 := by simpa [eraseMeta] using he
          subst hc
          simp only [specWalk]
          by_cases habort : o.symlinksShouldAbort
          · simp only [habort, if_true]
            rfl
          · simp only [habort, if_false, Bool.false_eq_true]
            exact List.Forall₂.cons ⟨rfl, ⟨rfl, rfl⟩⟩ List.Forall₂.nil
        | dir m2 s2 cs2 => simp [eraseMeta] at he
        | symlinkDir m2 s2 cs2 => simp [eraseMeta] at he
      | symlinkDir m1 s1 cs1 =>
        cases t2 with
        | file m2 c2 => simp [eraseMeta] at he
        | symlinkFile m2 c2 => simp [eraseMeta] at he
        | dir m2 s2 cs2 => simp [eraseMeta] at he
        | symlinkDir m2 s2 cs2 =>
          have hce : eraseChildren cs1 = eraseChildren cs2 := by
            simpa [eraseMeta] using he
          simp only [specWalk]
          by_cases habort : o.symlinksShouldAbort
          · simp only [habort, if_true]
            rfl
          · simp only [habort, if_false, Bool.false_eq_true]
            exact List.Forall₂.cons ⟨rfl, hce⟩ List.Forall₂.nil
      | dir m1 s1 cs1 =>
        cases t2 with
        | file m2 c2 => simp [eraseMeta] at he
        | symlinkFile m2 c2 => simp [eraseMeta] at he
        | symlinkDir m2 s2 cs2 => simp [eraseMeta] at he
        | dir m2 s2 cs2 =>
          have hce : eraseChildren cs1 = eraseChildren cs2 := by
            simpa [eraseMeta] using he
          have hcf := eraseChildren_forall₂ hce
          have hfil := forall₂_filter_allowed o hcf
          have hifeq : (cs1.filter (fun c => isAllowedName o c.1)).isEmpty =
              (cs2.filter (fun c => isAllowedName o c.1)).isEmpty :=
            isEmpty_congr hfil.length_eq
          simp only [specWalk, hifeq]
          by_cases hcond : ((cs2.filter (fun c => isAllowedName o c.1)).isEmpty
              && o.emptyDirsIgnored) = true
          · simp only [hcond, if_true]
            exact List.Forall₂.nil
          · simp only [hcond, if_false, Bool.false_eq_true]
            have hsorted := forall₂_insertionSort (forall₂_map_entries rp hfil)
            have hsz2 : stackSize (List.insertionSort entryLe
                ((cs1.filter (fun c => isAllowedName o c.1)).map
                  (fun c => (rp ++ [c.1], c.2)))) ≤ N := by
              rw [stackSize_perm (List.perm_insertionSort entryLe _), stackSize_entries]
              have h1 := childListSize_filter_le (fun c => isAllowedName o c.1) cs1
              simp only [nodeSize] at hsz
              omega
            have hrel := ih.2 _ _ hsz2 hsorted
            cases hA : specWalkList o (List.insertionSort entryLe
                ((cs1.filter (fun c => isAllowedName o c.1)).map
                  (fun c => (rp ++ [c.1], c.2)))) with
            | error e1 =>
              cases hB : specWalkList o (List.insertionSort entryLe
                  ((cs2.filter (fun c => isAllowedName o c.1)).map
                    (fun c => (rp ++ [c.1], c.2)))) with
              | error e2 =>
                rw [hA, hB] at hrel
                exact hrel
              | ok x =>
                rw [hA, hB] at hrel
                exact hrel.elim
            | ok x =>
              cases hB : specWalkList o (List.insertionSort entryLe
                  ((cs2.filter (fun c => isAllowedName o c.1)).map
                    (fun c => (rp ++ [c.1], c.2)))) with
              | error e2 =>
                rw [hA, hB] at hrel
                exact hrel.elim
              | ok y =>
                rw [hA, hB] at hrel
                exact List.Forall₂.cons ⟨rfl, trivial⟩ hrel
    refine ⟨hnode, ?_⟩
    intro l1 l2 hsz hm
    cases hm with
    | nil =>
      simp only [specWalkList]
      exact List.Forall₂.nil
    | cons hc hrest =>
      rename_i e1 e2 s1 s2
      simp only [specWalkList]
      have h1 := hnode e1.1 e1.2 e2.2
        (by simp only [stackSize] at hsz; omega) hc.2
      rw [← hc.1]
      have h2 := ih.2 s1 s2
        (by
          simp only [stackSize] at hsz
          have := nodeSize_pos e1.2
          omega) hrest
      cases hA : specWalk o e1.1 e1.2 with
      | error ea =>
        cases hB : specWalk o e1.1 e2.2 with
        | error eb =>
          rw [hA, hB] at h1
          exact h1 ▸ rfl
        | ok xb =>
          rw [hA, hB] at h1
          exact h1.elim
      | ok xa =>
        cases hB : specWalk o e1.1 e2.2 with
        | error eb =>
          rw [hA, hB] at h1
          exact h1.elim
        | ok xb =>
          rw [hA, hB] at h1
          cases hC : specWalkList o s1 with
          | error ec =>
            cases hD : specWalkList o s2 with
            | error ed =>
              rw [hC, hD] at h2
              exact h2 ▸ rfl
            | ok yd =>
              rw [hC, hD] at h2
              exact h2.elim
          | ok yc =>
            cases hD : specWalkList o s2 with
            | error ed =>
              rw [hC, hD] at h2
              exact h2.elim
            | ok yd =>
              rw [hC, hD] at h2
              exact List.rel_append h1 h2

theorem encodeItems_match (sha512 : List Nat → List Nat) (mainDir : String) (hq : Bool) :
    ∀ {items1 items2 : List DirWalkItem}, List.Forall₂ ItemMatch items1 items2 →
      encodeItems sha512 mainDir hq items1 = encodeItems sha512 mainDir hq items2 := by
  intro items1 items2 h
  induction h with
  | nil => rfl
  | cons hd hrest ih =>
    rename_i d1 d2 r1 r2
    obtain ⟨hrp, htyp⟩ := hd
    have htn : itemTarname mainDir d1 = itemTarname mainDir d2 := by
      rw [itemTarname, itemTarname, hrp]
    rw [encodeItems, encodeItems]
    cases h1 : d1.typ <;> cases h2 : d2.typ <;> rw [h1, h2] at htyp <;>
      simp only [] at htyp <;>
      first
      | exact htyp.elim
      | (simp only [h1, h2]
         first
         | (obtain ⟨hcont, hsize⟩ := htyp
            rw [htn, ih, hcont, hsize])
         | rw [htn, ih])

/-- C1: the pipeline is deterministic.  For a fixed setting of the options
(exclusion predicate, pruning, symlink abort, rename) and two trees with
the same contents — equal after erasing everything the program ignores:
file timestamps and directory stat sizes — two runs produce identical
results (byte-identical archive and byte-identical digest listing, or the
same error), no matter in which order the filesystem lists each
directory's entries (`rd1`, `rd2` are arbitrary permutation-producing
listings).  Well-formedness asks only that basenames inside each
directory are distinct, which every real filesystem guarantees. -/
theorem C1_pipeline_deterministic (sha512 : List Nat → List Nat) (mainDir : String)
    (o : WalkOpts) (hq : Bool) (rd1 rd2 : ReadDirFn) (inputName : String)
    (t1 t2 : FSNode) (hwf1 : nodeWF t1 = true) (hwf2 : nodeWF t2 = true)
    (he : eraseMeta t1 = eraseMeta t2) :
    runPipeline sha512 mainDir o hq rd1 inputName t1 =
      runPipeline sha512 mainDir o hq rd2 inputName t2 := by
  have h1 := walkAll_eq_specWalkList o rd1 (stackSize [([inputName], t1)])
    [([inputName], t1)] (Nat.le_refl _)
    (by
      intro e he2
      rw [List.mem_singleton] at he2
      subst he2
      exact hwf1)
  have h2 := walkAll_eq_specWalkList o rd2 (stackSize [([inputName], t2)])
    [([inputName], t2)] (Nat.le_refl _)
    (by
      intro e he2
      rw [List.mem_singleton] at he2
      subst he2
      exact hwf2)
  rw [runPipeline, runPipeline, h1, h2]
  have hrel := (specWalk_erase o (stackSize [([inputName], t1)])).2
    [([inputName], t1)] [([inputName], t2)] (Nat.le_refl _)
    (List.Forall₂.cons ⟨rfl, he⟩ List.Forall₂.nil)
  cases hA : specWalkList o [([inputName], t1)] with
  | error ea =>
    cases hB : specWalkList o [([inputName], t2)] with
    | error eb =>
      rw [hA, hB] at hrel
      rw [hrel]
    | ok y =>
      rw [hA, hB] at hrel
      exact hrel.elim
  | ok x =>
    cases hB : specWalkList o [([inputName], t2)] with
    | error eb =>
      rw [hA, hB] at hrel
      exact hrel.elim
    | ok y =>
      rw [hA, hB] at hrel
      simp only []
      rw [encodeItems_match sha512 mainDir hq hrel]

theorem C1_pipeline_deterministic_witness :
    nodeWF (FSNode.dir 1 5 [("a", FSNode.file 2 [9]), ("b", FSNode.file 3 [8])]) = true
    ∧ nodeWF (FSNode.dir 4 6 [("a", FSNode.file 7 [9]), ("b", FSNode.file 8 [8])]) = true
    ∧ eraseMeta (FSNode.dir 1 5 [("a", FSNode.file 2 [9]), ("b", FSNode.file 3 [8])]) =
        eraseMeta (FSNode.dir 4 6 [("a", FSNode.file 7 [9]), ("b", FSNode.file 8 [8])])
    ∧ runPipeline (fun l => l) "m" ⟨fun _ => false, false, false⟩ true idReadDir "r"
        (FSNode.dir 1 5 [("a", FSNode.file 2 [9]), ("b", FSNode.file 3 [8])]) =
      runPipeline (fun l => l) "m" ⟨fun _ => false, false, false⟩ true
        (fun _ cs => ⟨cs.reverse, List.reverse_perm cs⟩) "r"
        (FSNode.dir 4 6 [("a", FSNode.file 7 [9]), ("b", FSNode.file 8 [8])]) := by
  have hwf1 : nodeWF (FSNode.dir 1 5 [("a", FSNode.file 2 [9]), ("b", FSNode.file 3 [8])]) =
      true := by simp [nodeWF, nodupNames, childrenWF]
  have hwf2 : nodeWF (FSNode.dir 4 6 [("a", FSNode.file 7 [9]), ("b", FSNode.file 8 [8])]) =
      true := by simp [nodeWF, nodupNames, childrenWF]
  have he : eraseMeta (FSNode.dir 1 5 [("a", FSNode.file 2 [9]), ("b", FSNode.file 3 [8])]) =
      eraseMeta (FSNode.dir 4 6 [("a", FSNode.file 7 [9]), ("b", FSNode.file 8 [8])]) := by
    simp [eraseMeta, eraseChildren]
  exact ⟨hwf1, hwf2, he, C1_pipeline_deterministic (fun l => l) "m"
    ⟨fun _ => false, false, false⟩ true idReadDir
    (fun _ cs => ⟨cs.reverse, List.reverse_perm cs⟩) "r" _ _ hwf1 hwf2 he⟩
